import Mathlib

/-!
Verification development for the `smart_excel_kit` spreadsheet utilities
(`tools/utils.py`, class `ExcelProcessor`).

The development is a shallow embedding of the code paths relevant to the
coordinate resolver (`parse_range`, `validate_coord_format`), the column
letter codec (`_col_to_letter`, the base-26 decoder inside
`_cell_ref_to_pd_indices` / `parse_range`), the OOXML relationship walker
(`_read_relationships`, `_resolve_target`, `_rels_for_part`, `_localname`),
the three image-extraction passes (`extract_image_map`,
`_extract_drawing_images_map`, `_extract_cell_images_map`), and the sheet
patcher (`apply_sheet_updates_preserve_images`, `_update_sheet_xml`,
`_col_to_letter`).

Modelling conventions:
* Python strings are Lean `String`s; the character-level pipelines
  (strip / upper / split / regex-by-character-class) are implemented over
  `List Char` with `String` wrappers.  `str.upper` / `str.lower` are
  modelled for ASCII (`pyToUpper` / `pyToLower`), which is exact for every
  string the code manipulates (zip part names, cell references, format
  tags).
* Bytes are `List Nat` (each entry a byte value).
* A zip archive is an ordered list of named parts.  A part either parses
  as an XML document (`ZPart.xml`) or is raw binary (`ZPart.bin`); this
  models `ET.fromstring` as the identity on well-formed XML parts and as
  a raised `ParseError` on binary parts, and `ET.tostring` as storing the
  element tree back into the archive.  `zipfile.ZipFile.read` resolves a
  name to the last archive entry carrying it, exactly as Python's
  `NameToInfo` dictionary does.
* XML element trees are the mutual inductive `Xml`/`XmlList` (tag,
  attribute list, text, children), mirroring `xml.etree.ElementTree`
  where tags carry the namespace in braces.  Documents produced by
  `ET.fromstring` are genuine trees (no shared child objects), so
  Python's identity-keyed `parent_map` is modelled by traversing with an
  explicit ancestor context.
* The openpyxl object-model view used by the first (legacy) extraction
  pass is modelled by `Workbook`/`Worksheet`/`LegacyImage`: an image
  carries the optional anchor `_from` marker, the bytes produced by the
  `ref`/`fp`/`_data` accessor cascade (collapsed into one optional byte
  string, `none` when every accessor fails), and the optional `format`
  attribute, which is all the legacy pass reads from openpyxl objects.
-/

/-- Uppercase ASCII letter test, the character class `[A-Z]` of the
regexes in `_cell_ref_to_pd_indices`, `parse_range` and
`validate_coord_format`. -/
def isUpperAlpha (c : Char) : Bool :=
  65 ≤ c.toNat && c.toNat ≤ 90

/-- Digit test, the character class `[0-9]`. -/
def isDigitChar (c : Char) : Bool :=
  48 ≤ c.toNat && c.toNat ≤ 57

/-- ASCII model of Python `str.upper` applied per character. -/
def pyToUpper (c : Char) : Char :=
  if 97 ≤ c.toNat && c.toNat ≤ 122 then Char.ofNat (c.toNat - 32) else c

/-- ASCII model of Python `str.lower` applied per character. -/
def pyToLower (c : Char) : Char :=
  if 65 ≤ c.toNat && c.toNat ≤ 90 then Char.ofNat (c.toNat + 32) else c

/-- Model of Python `str.lower` on whole strings. -/
def lowerStr (s : String) : String :=
  ⟨s.data.map pyToLower⟩

/-- Whitespace test used by the model of Python `str.strip`. -/
def isSpaceChar (c : Char) : Bool :=
  c.toNat = 32 || c.toNat = 9 || c.toNat = 10 || c.toNat = 13 || c.toNat = 11 || c.toNat = 12

/-- Model of Python `str.strip` over a character list. -/
def stripChars (l : List Char) : List Char :=
  ((l.dropWhile isSpaceChar).reverse.dropWhile isSpaceChar).reverse

/-- Model of Python `str.strip` on strings. -/
def pyStrip (s : String) : String :=
  ⟨stripChars s.data⟩

/-- Model of Python `str.split(sep)` for a one-character separator. -/
def splitOnChar (sep : Char) : List Char → List (List Char)
  | [] => [[]]
  | c :: rest =>
    let r := splitOnChar sep rest
    if c = sep then [] :: r else (c :: r.headD []) :: r.tail

/-- Suffix test over character lists, via reversed prefixes. -/
def listEndsWith (l suf : List Char) : Bool :=
  suf.reverse.isPrefixOf l.reverse

/-- Model of Python `str.endswith` for a single suffix. -/
def strEndsWith (s suf : String) : Bool :=
  listEndsWith s.data suf.data

/-- Model of Python `str.startswith` for a single one-character test. -/
def strStartsWithChar (s : String) (c : Char) : Bool :=
  match s.data with
  | [] => false
  | c0 :: _ => c0 = c

/-- Containment of a character list inside another, the model of
Python's `sub in s` substring test. -/
def listContainsSub (l sub : List Char) : Bool :=
  match l with
  | [] => sub.isPrefixOf []
  | _ :: rest => sub.isPrefixOf l || listContainsSub rest sub

/-- Model of Python's `sub in s` on strings. -/
def strContainsSub (s sub : String) : Bool :=
  listContainsSub s.data sub.data

/-- Decimal value of a digit character list (used where the code applies
`int(...)` to a regex group known to consist of digits). -/
def parseNatChars (l : List Char) : Nat :=
  l.foldl (fun acc c => acc * 10 + (c.toNat - 48)) 0

/-- Model of Python `int(s)` on arbitrary strings: optional surrounding
whitespace, optional sign, then at least one digit, nothing else;
`none` models the raised `ValueError`/`TypeError`. -/
def parsePyInt (s : String) : Option Int :=
  let t := stripChars s.data
  match t with
  | '-' :: ds =>
    if ds ≠ [] && ds.all isDigitChar then some (-(parseNatChars ds : Int)) else none
  | '+' :: ds =>
    if ds ≠ [] && ds.all isDigitChar then some (parseNatChars ds : Int) else none
  | ds =>
    if ds ≠ [] && ds.all isDigitChar then some (parseNatChars ds : Int) else none

/-- Model of `posixpath.dirname`: everything before the final slash,
with trailing slashes stripped unless the head is all slashes. -/
def dirnameChars (l : List Char) : List Char :=
  let r := l.reverse
  if r.contains '/' then
    let head := (r.dropWhile (fun c => c ≠ '/')).reverse
    if head ≠ [] && head.any (fun c => c ≠ '/') then
      (head.reverse.dropWhile (fun c => c = '/')).reverse
    else head
  else []

/-- Model of `posixpath.dirname` on strings. -/
def pyDirname (s : String) : String :=
  ⟨dirnameChars s.data⟩

/-- Model of `posixpath.basename`: everything after the final slash. -/
def pyBasename (s : String) : String :=
  ⟨(s.data.reverse.takeWhile (fun c => c ≠ '/')).reverse⟩

/-- Model of `posixpath.join` for two components as used by
`_resolve_target` / `_rels_for_part` (the second component is never
absolute there unless it starts with a slash, in which case it wins). -/
def pyJoin (a b : String) : String :=
  if strStartsWithChar b '/' then b
  else if a = "" then b
  else if strEndsWith a "/" then a ++ b
  else a ++ "/" ++ b

/-- Component-processing loop of `posixpath.normpath`. -/
def normpathComps (slashes : Nat) : List (List Char) → List (List Char) → List (List Char)
  | acc, [] => acc.reverse
  | acc, comp :: rest =>
    if comp = [] || comp = ['.'] then normpathComps slashes acc rest
    else if comp ≠ ['.', '.'] || (slashes = 0 && acc = []) ||
        (acc ≠ [] && acc.headD [] = ['.', '.']) then
      normpathComps slashes (comp :: acc) rest
    else if acc ≠ [] then normpathComps slashes acc.tail rest
    else normpathComps slashes acc rest

/-- Model of `posixpath.normpath`. -/
def pyNormpath (s : String) : String :=
  if s = "" then "." else
  let l := s.data
  let slashes : Nat :=
    if l.headD ' ' = '/' then
      if (l.take 2 = ['/', '/']) && (l.take 3 ≠ ['/', '/', '/']) then 2 else 1
    else 0
  let comps := splitOnChar '/' l
  let news := normpathComps slashes [] comps
  let joined := (List.replicate slashes '/') ++ (news.intersperse ['/']).flatten
  if joined = [] then "." else ⟨joined⟩

/-- Extension part of `os.path.splitext` (with its leading dot): the
segment from the last dot of the basename, unless every character in
front of that dot is itself a dot. -/
def splitextExtChars (p : List Char) : List Char :=
  let bn := (p.reverse.takeWhile (fun c => c ≠ '/')).reverse
  let r := bn.reverse
  if r.contains '.' then
    let extRev := r.takeWhile (fun c => c ≠ '.') ++ ['.']
    let nameRev := (r.dropWhile (fun c => c ≠ '.')).drop 1
    if nameRev.any (fun c => c ≠ '.') then extRev.reverse else []
  else []

/-- Base64 alphabet table. -/
def b64Alphabet : List Char :=
  "ABCDEFGHIJKLMNOPQRSTUVWXYZabcdefghijklmnopqrstuvwxyz0123456789+/".data

/-- Character of the base64 alphabet at a 6-bit index. -/
def b64char (n : Nat) : Char :=
  b64Alphabet.getD n 'A'

/-- Model of `base64.b64encode(...).decode('utf-8')`: standard base64
with padding over a byte list. -/
def b64encode : List Nat → List Char
  | [] => []
  | [a] =>
    let a := a % 256
    [b64char (a / 4), b64char (a % 4 * 16), '=', '=']
  | [a, b] =>
    let a := a % 256
    let b := b % 256
    [b64char (a / 4), b64char (a % 4 * 16 + b / 16), b64char (b % 16 * 4), '=']
  | a :: b :: c :: rest =>
    let a := a % 256
    let b := b % 256
    let c := c % 256
    [b64char (a / 4), b64char (a % 4 * 16 + b / 16), b64char (b % 16 * 4 + c / 64),
      b64char (c % 64)] ++ b64encode rest

/-- Data-URI assembly `f"data:image/\x7bfmt\x7d;base64,\x7bb64\x7d"`
shared by all image producers. -/
def mkDataUri (fmt : String) (payload : List Char) : String :=
  "data:image/" ++ fmt ++ ";base64," ++ ⟨payload⟩

example : pyNormpath "xl/worksheets/_rels/../drawings/drawing1.xml" = "xl/worksheets/drawings/drawing1.xml" := by decide
example : pyNormpath "xl/worksheets/_rels/../../media/image1.png" = "xl/media/image1.png" := by decide
example : pyDirname "xl/worksheets/_rels/sheet1.xml.rels" = "xl/worksheets/_rels" := by decide
example : splitextExtChars "xl/media/image1.PNG".data = ".PNG".data := by decide
example : b64encode [77, 97, 110] = "TWFu".data := by decide
example : b64encode [77, 97] = "TWE=".data := by decide
example : b64encode [77] = "TQ==".data := by decide

mutual
/-- Element tree mirroring `xml.etree.ElementTree.Element`: qualified
tag, attribute dictionary (as an ordered association list with unique
keys, matching insertion order), optional text, and child list. -/
inductive Xml where
  | mk (tag : String) (attrs : List (String × String)) (text : Option String) (children : XmlList)
/-- Child list of an element tree. -/
inductive XmlList where
  | nil
  | cons (head : Xml) (tail : XmlList)
end

/-- Tag of an element. -/
def Xml.tag : Xml → String
  | .mk t _ _ _ => t

/-- Attribute dictionary of an element. -/
def Xml.attrs : Xml → List (String × String)
  | .mk _ a _ _ => a

/-- Text of an element (`Element.text`, `none` models Python `None`). -/
def Xml.text : Xml → Option String
  | .mk _ _ tx _ => tx

/-- Child list of an element. -/
def Xml.children : Xml → XmlList
  | .mk _ _ _ cs => cs

/-- Conversion of a child list to an ordinary list. -/
def XmlList.toList : XmlList → List Xml
  | .nil => []
  | .cons c cs => c :: XmlList.toList cs

/-- Conversion of an ordinary list to a child list. -/
def XmlList.ofList : List Xml → XmlList
  | [] => .nil
  | c :: cs => .cons c (XmlList.ofList cs)

/-- Ancestor context carried by the traversal: the attribute
dictionaries of the ancestors, nearest first.  This models walking
Python's identity-keyed `parent_map` upward, which only ever reads the
ancestors' attributes. -/
abbrev AncCtx := List (List (String × String))

mutual
/-- Preorder traversal with ancestor context, modelling
`Element.iter()` together with the `parent_map` the code derives from
the same tree. -/
def Xml.iterA (anc : AncCtx) : Xml → List (Xml × AncCtx)
  | .mk t a tx cs => (.mk t a tx cs, anc) :: XmlList.iterA (a :: anc) cs
/-- Preorder traversal of a child list with ancestor context. -/
def XmlList.iterA (anc : AncCtx) : XmlList → List (Xml × AncCtx)
  | .nil => []
  | .cons c cs => Xml.iterA anc c ++ XmlList.iterA anc cs
end

/-- Preorder traversal `Element.iter()`: the element itself followed by
all descendants in document order. -/
def Xml.iter (x : Xml) : List Xml :=
  (Xml.iterA [] x).map Prod.fst

/-- First value of an attribute key (`Element.attrib.get(k)`). -/
def Xml.attrGet (x : Xml) (k : String) : Option String :=
  (x.attrs.find? (fun kv => kv.1 = k)).map Prod.snd

/-- Model of `ExcelProcessor._localname`: the part of the tag after the
first closing brace (`tag.split('}', 1)[-1]`), the whole tag when no
brace occurs. -/
def localname (tag : String) : String :=
  if tag = "" then "" else
  if tag.data.contains '\x7d' then ⟨(tag.data.dropWhile (fun c => c ≠ '\x7d')).drop 1⟩
  else tag

/-- Model of `ExcelProcessor._find_rid`: value of the first attribute
whose key ends in `id`. -/
def findRid (x : Xml) : Option String :=
  (x.attrs.find? (fun kv => strEndsWith kv.1 "id")).map Prod.snd

/-- ZPart of a zip archive: either a document that `ET.fromstring`
parses (stored as its element tree) or raw bytes. -/
inductive ZPart where
  | xml (x : Xml)
  | bin (data : List Nat)

/-- Archive: the ordered entry list of a zip file
(`ZipFile.infolist()` order), names possibly repeating. -/
abbrev Archive := List (String × ZPart)

/-- Disk file handed to the zip-walking helpers: a readable zip archive
or anything else (missing path, empty path, or a non-zip file), for
which `zipfile.is_zipfile` is false. -/
inductive XFile where
  | zip (arch : Archive)
  | notZip (data : List Nat)

/-- Model of `zipfile.is_zipfile`. -/
def isZipfileX : XFile → Bool
  | .zip _ => true
  | .notZip _ => false

/-- Model of `name in zf.namelist()`. -/
def hasName (a : Archive) (n : String) : Bool :=
  a.any (fun e => e.1 = n)

/-- Model of `zf.read(name)` resolution: the last entry with the given
name, as Python's `NameToInfo` dictionary retains. -/
def getPart (a : Archive) (n : String) : Option ZPart :=
  a.foldl (fun acc e => if e.1 = n then some e.2 else acc) none

/-- Model of `ET.fromstring(zf.read(p))` for a part already fetched:
succeeds exactly on XML parts. -/
def parsePart : ZPart → Option Xml
  | .xml x => some x
  | .bin _ => none

mutual
/-- Pseudo-serialization of an element used only to give XML parts a
byte representation when the code reads them as raw image bytes. -/
def Xml.serialize : Xml → String
  | .mk t a tx cs =>
    "<" ++ t ++ (a.map (fun kv => " " ++ kv.1 ++ "=" ++ kv.2)).foldl (· ++ ·) "" ++ ">"
      ++ (match tx with | some s => s | none => "") ++ XmlList.serialize cs ++ "</" ++ t ++ ">"
/-- Pseudo-serialization of a child list. -/
def XmlList.serialize : XmlList → String
  | .nil => ""
  | .cons c cs => Xml.serialize c ++ XmlList.serialize cs
end

/-- Model of `zf.read(name)` raw bytes of a part. -/
def partBytes : ZPart → List Nat
  | .bin d => d
  | .xml x => (Xml.serialize x).data.map Char.toNat

/-- Relationship dictionary: ordered association list with unique keys
and Python-dict overwrite semantics. -/
abbrev RelDict := List (String × String)

/-- Dictionary insertion with overwrite-in-place, matching
`rels[rid] = target` on a Python dict. -/
def dinsert (d : RelDict) (k v : String) : RelDict :=
  match d with
  | [] => [(k, v)]
  | (k0, v0) :: rest => if k0 = k then (k0, v) :: rest else (k0, v0) :: dinsert rest k v

/-- Dictionary lookup `d.get(k)`. -/
def dget (d : RelDict) (k : String) : Option String :=
  (d.find? (fun kv => kv.1 = k)).map Prod.snd

/-- Dictionary membership `k in d`. -/
def dhas (d : RelDict) (k : String) : Bool :=
  d.any (fun kv => kv.1 = k)

/-- Relationship pairs read from a parsed rels document: each
`Relationship` element's `Id` / `Target` attributes, both non-empty. -/
def relationshipPairs (x : Xml) : List (String × String) :=
  x.iter.filterMap (fun e =>
    if localname e.tag = "Relationship" then
      match e.attrGet "Id", e.attrGet "Target" with
      | some rid, some tgt => if rid ≠ "" && tgt ≠ "" then some (rid, tgt) else none
      | _, _ => none
    else none)

/-- Model of `ExcelProcessor._read_relationships`: parse the rels part
at the given path and fold the `Relationship` elements into a
dictionary (later ids overwrite earlier ones). -/
def readRelationships (a : Archive) (relsPath : String) : RelDict :=
  if relsPath = "" then []
  else match getPart a relsPath with
  | none => []
  | some part =>
    match parsePart part with
    | none => []
    | some x => (relationshipPairs x).foldl (fun d kv => dinsert d kv.1 kv.2) []

/-- Model of `ExcelProcessor._rels_for_part`:
`posixpath.join(folder, '_rels', base + '.rels')`. -/
def relsForPart (p : String) : String :=
  pyJoin (pyJoin (pyDirname p) "_rels") (pyBasename p ++ ".rels")

/-- Model of `ExcelProcessor._resolve_target`:
`posixpath.normpath(posixpath.join(posixpath.dirname(base), target))`,
`none` when base or target is empty. -/
def resolveTarget (base target : String) : Option String :=
  if base = "" || target = "" then none
  else some (pyNormpath (pyJoin (pyDirname base) target))

example : relsForPart "xl/worksheets/sheet1.xml" = "xl/worksheets/_rels/sheet1.xml.rels" := by decide
example : resolveTarget "xl/worksheets/_rels/sheet1.xml.rels" "../../media/image1.png" = some "xl/media/image1.png" := by decide
example : localname "\x7bhttp://x/y\x7ddrawing" = "drawing" := by decide

/-- Raster formats accepted by the encoders. -/
def allowedFmts : List String :=
  ["png", "jpg", "jpeg", "bmp", "gif", "webp"]

/-- Vector and metafile formats explicitly rejected. -/
def vectorFmts : List String :=
  ["emf", "wmf", "vml"]

/-- Normalized extension of a part name as computed by
`_read_image_as_data_uri`:
`os.path.splitext(image_path)[1].lower().lstrip('.')`. -/
def extOfPath (p : String) : String :=
  ⟨((splitextExtChars p.data).map pyToLower).dropWhile (fun c => c = '.')⟩

/-- Model of `ExcelProcessor._read_image_as_data_uri`: read the bytes of
the part at `image_path`, derive a format tag from the extension
(empty becomes `png`, vector formats are rejected, anything unknown is
coerced to `png`), and assemble a base64 data URI. -/
def readImageAsDataUri (a : Archive) (imagePath : String) : Option String :=
  if imagePath = "" then none
  else match getPart a imagePath with
  | none => none
  | some part =>
    let data := partBytes part
    let ext := extOfPath imagePath
    let ext := if ext = "" then "png" else ext
    if vectorFmts.contains ext then none
    else
      let ext := if allowedFmts.contains ext then ext else "png"
      some (mkDataUri ext (b64encode data))

/-- Bijective base-26 decoding loop
`for ch in col_str: col_idx = col_idx * 26 + (ord(ch) - ord('A') + 1)`
shared verbatim by `_cell_ref_to_pd_indices` and `parse_range`. -/
def colLettersVal (l : List Char) : Int :=
  l.foldl (fun acc ch => acc * 26 + ((ch.toNat : Int) - 65 + 1)) 0

/-- Model of `ExcelProcessor._cell_ref_to_pd_indices`: full-match the
stripped, uppercased reference against `([A-Z]+)([0-9]+)`, decode the
letters in bijective base 26 minus one, and return
`(int(row_str) - 1, col_idx)`. -/
def cellRefToPdIndices (ref : String) : Option (Int × Int) :=
  if ref = "" then none
  else
    let s := (stripChars ref.data).map pyToUpper
    let letters := s.takeWhile isUpperAlpha
    let rest := s.dropWhile isUpperAlpha
    let digits := rest.takeWhile isDigitChar
    let tail := rest.dropWhile isDigitChar
    if letters = [] || digits = [] || tail ≠ [] then none
    else
      let colIdx : Int := colLettersVal letters - 1
      let rowIdx : Int := (parseNatChars digits : Int) - 1
      some (rowIdx, colIdx)

/-- Row/col accumulator pass of `_find_marker`: scan the subtree of a
`from`/`marker` candidate, letting later parseable `row`/`col` texts
overwrite earlier ones, parse failures leaving the state unchanged. -/
def markerRowCol (child : Xml) : Option Int × Option Int :=
  child.iter.foldl (fun st gc =>
    let gname := lowerStr (localname gc.tag)
    if gname = "row" then
      match gc.text with
      | some t => match parsePyInt t with
        | some v => (some v, st.2)
        | none => st
      | none => st
    else if gname = "col" then
      match gc.text with
      | some t => match parsePyInt t with
        | some v => (st.1, some v)
        | none => st
      | none => st
    else st) (none, none)

/-- Model of `ExcelProcessor._find_marker`: first `from`/`marker`
element in the subtree whose row and col both resolve, returned as the
raw `(row, col)` pair. -/
def findMarker (x : Xml) : Option (Int × Int) :=
  x.iter.findSome? (fun child =>
    if lowerStr (localname child.tag) = "from" || lowerStr (localname child.tag) = "marker" then
      match markerRowCol child with
      | (some r, some c) => some (r, c)
      | _ => none
    else none)

/-- Attribute-based location probe shared by the steps of
`_find_cell_location`: first attribute whose key ends in
`ref`/`cell`/`r`/`f` and whose value parses as a cell reference. -/
def attrLoc (attrs : List (String × String)) : Option (Int × Int) :=
  attrs.findSome? (fun kv =>
    if strEndsWith kv.1 "ref" || strEndsWith kv.1 "cell" || strEndsWith kv.1 "r"
        || strEndsWith kv.1 "f" then
      cellRefToPdIndices kv.2
    else none)

/-- Model of `ExcelProcessor._find_cell_location` with a parent map:
own attributes first, then a `from`/`marker` descendant, then the
ancestors' attributes walking upward. -/
def findCellLocation (x : Xml) (anc : AncCtx) : Option (Int × Int) :=
  match attrLoc x.attrs with
  | some loc => some loc
  | none =>
    match findMarker x with
    | some loc => some loc
    | none => anc.findSome? attrLoc

/-- Model of `ExcelProcessor._find_blip_embed`: first `blip` element of
the subtree carrying an attribute whose key ends in `embed`. -/
def findBlipEmbed (x : Xml) : Option String :=
  x.iter.findSome? (fun child =>
    if lowerStr (localname child.tag) = "blip" then
      (child.attrs.find? (fun kv => strEndsWith kv.1 "embed")).map Prod.snd
    else none)

/-- Image map built by the extraction passes: insertion-ordered
dictionary from `(row, col)` to a list of encoded data URIs. -/
abbrev ImageMap := List ((Int × Int) × List String)

/-- Map update `image_map.setdefault(key, []).append(v)` as the code
writes it (`if key not in image_map: image_map[key] = []` followed by
`append`). -/
def mapAppend (m : ImageMap) (k : Int × Int) (v : String) : ImageMap :=
  match m with
  | [] => [(k, [v])]
  | (k0, l0) :: rest => if k0 = k then (k0, l0 ++ [v]) :: rest else (k0, l0) :: mapAppend rest k v

/-- Map update `image_map[key].extend(values)` preceded by the same
membership test. -/
def mapExtend (m : ImageMap) (k : Int × Int) (vs : List String) : ImageMap :=
  match m with
  | [] => [(k, vs)]
  | (k0, l0) :: rest => if k0 = k then (k0, l0 ++ vs) :: rest else (k0, l0) :: mapExtend rest k vs

/-- Lookup `image_map.get(key)`. -/
def mapLookup (m : ImageMap) (k : Int × Int) : Option (List String) :=
  (m.find? (fun e => e.1 = k)).map Prod.snd

/-- Fold of location/URI pairs into an image map, in emission order. -/
def buildMap (pairs : List ((Int × Int) × String)) : ImageMap :=
  pairs.foldl (fun m kv => mapAppend m kv.1 kv.2) []

/-- Sheet part name `f"xl/worksheets/sheet\x7bsheet_number\x7d.xml"`. -/
def sheetPath (n : Int) : String :=
  "xl/worksheets/sheet" ++ toString n ++ ".xml"

/-- Sheet rels name
`f"xl/worksheets/_rels/sheet\x7bsheet_number\x7d.xml.rels"`. -/
def sheetRelsPath (n : Int) : String :=
  "xl/worksheets/_rels/sheet" ++ toString n ++ ".xml.rels"

/-- Image-file suffixes accepted by the direct-relationship branch of
the cell-image pass (`target_path.lower().endswith((...))`). -/
def imageExts : List String :=
  [".png", ".jpg", ".jpeg", ".bmp", ".gif", ".webp"]

/-- Drawing relationship ids of a sheet document: for every element
with local name `drawing`, the first attribute ending in `id`, when
non-empty. -/
def drawingRidsOf (root : Xml) : List String :=
  root.iter.filterMap (fun e =>
    if localname e.tag = "drawing" then
      match findRid e with
      | some rid => if rid ≠ "" then some rid else none
      | none => none
    else none)

/-- First direct `from` child of an anchor element. -/
def frmOf (anchor : Xml) : Option Xml :=
  anchor.children.toList.find? (fun c => localname c.tag = "from")

/-- The `row`/`col` texts of a `from` element's direct children, later
parseable texts overwriting earlier ones, failures ignored. -/
def frmRowCol (frm : Xml) : Option Int × Option Int :=
  frm.children.toList.foldl (fun st c =>
    let lname := localname c.tag
    if lname = "row" then
      match c.text with
      | some t => match parsePyInt t with
        | some v => (some v, st.2)
        | none => st
      | none => st
    else if lname = "col" then
      match c.text with
      | some t => match parsePyInt t with
        | some v => (st.1, some v)
        | none => st
      | none => st
    else st) (none, none)

/-- Blip embed id search of the drawing pass: first element of the
anchor subtree with local name `blip` whose first `embed`-suffixed
attribute value is non-empty. -/
def anchorBlipRid (anchor : Xml) : Option String :=
  anchor.iter.findSome? (fun e =>
    if localname e.tag = "blip" then
      match (e.attrs.find? (fun kv => strEndsWith kv.1 "embed")).map Prod.snd with
      | some v => if v ≠ "" then some v else none
      | none => none
    else none)

/-- Location/URI pairs contributed by the anchors of one drawing part,
in document order, mirroring the anchor loop of
`_extract_drawing_images_map` (including the `row - 1` conversion and
the discard of anchors resolving below data row 0). -/
def drawingAnchorPairs (a : Archive) (drawingRels : RelDict) (drawingRelsPath : String)
    (droot : Xml) : List ((Int × Int) × String) :=
  droot.iter.filterMap (fun anchor =>
    if localname anchor.tag = "twoCellAnchor" || localname anchor.tag = "oneCellAnchor" then
      match frmOf anchor with
      | none => none
      | some frm =>
        match frmRowCol frm with
        | (some row, some col) =>
          match anchorBlipRid anchor with
          | none => none
          | some blipRid =>
            match dget drawingRels blipRid with
            | none => none
            | some imgTarget =>
              if imgTarget = "" then none
              else match resolveTarget drawingRelsPath imgTarget with
              | none => none
              | some imgPath =>
                match readImageAsDataUri a imgPath with
                | none => none
                | some uri => if row - 1 < 0 then none else some (((row - 1 : Int), col), uri)
        | _ => none
    else none)

/-- Model of `ExcelProcessor._extract_drawing_images_map`: locate the
sheet's `drawing` relationship ids, resolve each through the sheet
rels to a drawing part, and collect that part's anchored images. -/
def extract_drawing_images_map (f : XFile) (n : Int) : ImageMap :=
  match f with
  | .notZip _ => []
  | .zip a =>
    match getPart a (sheetPath n) with
    | none => []
    | some part =>
      match parsePart part with
      | none => []
      | some sroot =>
        let rids := drawingRidsOf sroot
        if rids = [] then []
        else
          let srp := sheetRelsPath n
          let srels := readRelationships a srp
          buildMap (rids.flatMap (fun rid =>
            match dget srels rid with
            | none => []
            | some target =>
              if target = "" then []
              else match resolveTarget srp target with
              | none => []
              | some dpath =>
                match getPart a dpath with
                | none => []
                | some dpart =>
                  match parsePart dpart with
                  | none => []
                  | some droot =>
                    let drp := relsForPart dpath
                    drawingAnchorPairs a (readRelationships a drp) drp droot))

/-- Direct-image pairs of the cell-image pass (step 1 of
`_extract_cell_images_map`): every sheet element carrying a
relationship id that points at an image file, located through
`_find_cell_location` with the sheet's parent map. -/
def cellPass1Pairs (a : Archive) (srp : String) (srels : RelDict) (sroot : Xml) :
    List ((Int × Int) × String) :=
  (Xml.iterA [] sroot).filterMap (fun p =>
    match findRid p.1 with
    | none => none
    | some rid =>
      if rid = "" then none
      else if ¬ dhas srels rid then none
      else match dget srels rid with
      | none => none
      | some target =>
        if target = "" then none
        else match resolveTarget srp target with
        | none => none
        | some tpath =>
          if ¬ imageExts.any (fun ext => strEndsWith (lowerStr tpath) ext) then none
          else match findCellLocation p.1 p.2 with
          | none => none
          | some loc =>
            match readImageAsDataUri a tpath with
            | none => none
            | some uri => some (loc, uri))

/-- Cell-image-part pairs of the cell-image pass (step 2 of
`_extract_cell_images_map`): sheet relationships whose target names a
cell-image part, each blip of that part resolved through the part's
own rels, located through `_find_cell_location` with the part's parent
map. -/
def cellPass2Pairs (a : Archive) (srp : String) (srels : RelDict) :
    List ((Int × Int) × String) :=
  srels.flatMap (fun rt =>
    if ¬ strContainsSub (lowerStr rt.2) "cellimage" && ¬ strContainsSub (lowerStr rt.2) "cellimages" then []
    else match resolveTarget srp rt.2 with
    | none => []
    | some tpath =>
      match getPart a tpath with
      | none => []
      | some p =>
        match parsePart p with
        | none => []
        | some croot =>
          let crp := relsForPart tpath
          let crels := readRelationships a crp
          (Xml.iterA [] croot).filterMap (fun q =>
            let embedRid := match findBlipEmbed q.1 with
              | some s => if s = "" then findRid q.1 else some s
              | none => findRid q.1
            match embedRid with
            | none => none
            | some er =>
              if er = "" then none
              else if ¬ dhas crels er then none
              else match dget crels er with
              | none => none
              | some it =>
                if it = "" then none
                else match resolveTarget crp it with
                | none => none
                | some ipath =>
                  match readImageAsDataUri a ipath with
                  | none => none
                  | some uri =>
                    match findCellLocation q.1 q.2 with
                    | none => none
                    | some loc => some (loc, uri)))

/-- Model of `ExcelProcessor._extract_cell_images_map`: direct image
relationships referenced from the sheet, then cell-image parts
referenced from the sheet rels. -/
def extract_cell_images_map (f : XFile) (n : Int) : ImageMap :=
  match f with
  | .notZip _ => []
  | .zip a =>
    match getPart a (sheetPath n) with
    | none => []
    | some part =>
      match parsePart part with
      | none => []
      | some sroot =>
        let srp := sheetRelsPath n
        let srels := readRelationships a srp
        buildMap (cellPass1Pairs a srp srels sroot ++ cellPass2Pairs a srp srels)

/-- Image of the openpyxl object model as consumed by the legacy pass:
the anchor's `_from` marker as an optional `(col, row)` pair, the
bytes delivered by the first successful `ref`/`fp`/`_data` accessor,
and the optional `format` attribute. -/
structure LegacyImage where
  marker : Option (Int × Int)
  bytes : Option (List Nat)
  format : Option String

/-- Worksheet view of the openpyxl object model: its image list
(`ws._images or ws.images`). -/
structure Worksheet where
  images : List LegacyImage

/-- Workbook view of the openpyxl object model. -/
structure Workbook where
  sheets : List Worksheet
  active : Worksheet

/-- Python list indexing with negative wrap-around, `none` modelling a
raised `IndexError`. -/
def pyGet (l : List α) (i : Int) : Option α :=
  if 0 ≤ i then l.get? i.toNat
  else if (-i).toNat ≤ l.length then l.get? (l.length - (-i).toNat) else none

/-- Worksheet selection of `extract_image_map`:
`worksheets[sheet_number - 1]` when the selector is within the sheet
count, else the active sheet; `none` models a raised `IndexError`
(caught by the legacy pass's enclosing handler). -/
def selectWorksheet (wb : Workbook) (n : Int) : Option Worksheet :=
  if n ≤ (wb.sheets.length : Int) then pyGet wb.sheets (n - 1) else some wb.active

/-- Location/URI pairs of the legacy object-model pass of
`extract_image_map`: anchor marker required, `row - 1` conversion with
discard of results below 0, byte extraction, format normalization with
vector rejection and coercion to `png`. -/
def legacyPairs (images : List LegacyImage) : List ((Int × Int) × String) :=
  images.filterMap (fun img =>
    match img.marker with
    | none => none
    | some mk =>
      let pdRow := mk.2 - 1
      if pdRow < 0 then none
      else match img.bytes with
      | none => none
      | some data =>
        if data = [] then none
        else
          let fmt := match img.format with
            | some f => if f ≠ "" then lowerStr f else "png"
            | none => "png"
          if vectorFmts.contains fmt then none
          else
            let fmt := if allowedFmts.contains fmt then fmt else "png"
            some ((pdRow, mk.1), mkDataUri fmt (b64encode data)))

/-- Model of `ExcelProcessor.extract_image_map`: legacy object-model
pass merged with the drawing-XML pass and the cell-image pass.  The
`path` argument carries the file name for the `.xlsx` suffix guard,
`file` is `none` when the path does not exist, and `wb` is `none` when
`load_workbook` raised (the legacy section is skipped but the
`finally` block still runs the other two passes). -/
def extract_image_map (path : String) (file : Option XFile) (wb : Option Workbook)
    (n : Int) : ImageMap :=
  match file with
  | none => []
  | some f =>
    if path = "" then []
    else if ¬ strEndsWith (lowerStr path) ".xlsx" then []
    else
      let lp := match wb with
        | none => []
        | some w =>
          match selectWorksheet w n with
          | none => []
          | some ws => legacyPairs ws.images
      let m1 := buildMap lp
      let m2 := (extract_drawing_images_map f n).foldl (fun acc kv => mapExtend acc kv.1 kv.2) m1
      (extract_cell_images_map f n).foldl (fun acc kv => mapExtend acc kv.1 kv.2) m2

/-- Loop body of `ExcelProcessor._col_to_letter`
(`while col > 0: col, rem = divmod(col - 1, 26); append chr(65 + rem)`),
written with explicit fuel so that the definition reduces; fuel at
least the column number is always sufficient because the quotient
strictly decreases. -/
def colToLetterGo : Nat → Nat → List Char
  | _, 0 => []
  | 0, _ + 1 => []
  | fuel + 1, col + 1 => colToLetterGo fuel (col / 26) ++ [Char.ofNat (65 + col % 26)]

/-- Model of `ExcelProcessor._col_to_letter`: bijective base-26
encoding of a positive column number, the empty string for
non-positive input. -/
def col_to_letter (col : Int) : String :=
  ⟨colToLetterGo col.toNat col.toNat⟩

/-- Main spreadsheet namespace of `_update_sheet_xml`. -/
def mainNs : String :=
  "http://schemas.openxmlformats.org/spreadsheetml/2006/main"

/-- Namespaced tag `f"\x7b\x7bns\x7d\x7d..."` of `_update_sheet_xml`. -/
def nsTag (localPart : String) : String :=
  "\x7b" ++ mainNs ++ "\x7d" ++ localPart

/-- Qualified attribute key of the XML `space` attribute set by
`_update_sheet_xml` for values with leading or trailing blanks. -/
def xmlSpaceKey : String :=
  "\x7bhttp://www.w3.org/XML/1998/namespace\x7dspace"

/-- Attribute assignment `elem.set(k, v)` with Python-dict overwrite
semantics. -/
def attrSet (attrs : List (String × String)) (k v : String) : List (String × String) :=
  match attrs with
  | [] => [(k, v)]
  | (k0, v0) :: rest => if k0 = k then (k0, v) :: rest else (k0, v0) :: attrSet rest k v

/-- Placeholder element for total list indexing (never observed: every
access is in range by construction). -/
def dummyXml : Xml :=
  .mk "" [] none .nil

/-- Insertion with overwrite into the integer-keyed `rows` dictionary
of `_update_sheet_xml`, values being arena indices of row elements. -/
def idinsert (d : List (Int × Nat)) (k : Int) (v : Nat) : List (Int × Nat) :=
  match d with
  | [] => [(k, v)]
  | (k0, v0) :: rest => if k0 = k then (k0, v) :: rest else (k0, v0) :: idinsert rest k v

/-- Lookup in the integer-keyed `rows` dictionary. -/
def idget (d : List (Int × Nat)) (k : Int) : Option Nat :=
  (d.find? (fun kv => kv.1 = k)).map Prod.snd

/-- Mutable state of `_update_sheet_xml` over one `sheetData` element:
Python mutates row elements aliased both from the child list and from
the `rows` dictionary, which is modelled by an arena of row elements
(`arena`), the child list holding arena indices for rows and plain
elements otherwise (`order`), and the dictionary mapping file row
numbers to arena indices (`rowsDict`). -/
structure PatchState where
  order : List (Sum Nat Xml)
  arena : List Xml
  rowsDict : List (Int × Nat)

/-- Arena construction from the `sheetData` child list: each direct
`ns:row` child becomes an arena entry, all other children stay plain. -/
def initPatchState (cs : List Xml) : PatchState :=
  cs.foldl (fun st c =>
    if c.tag = nsTag "row" then
      { st with order := st.order ++ [Sum.inl st.arena.length], arena := st.arena ++ [c] }
    else { st with order := st.order ++ [Sum.inr c] }) ⟨[], [], []⟩

/-- The `rows` dictionary of `_update_sheet_xml`: every direct `ns:row`
child keyed by its parsed `r` attribute, later rows overwriting
earlier ones, unparseable attributes skipped. -/
def initRowsDict (st : PatchState) : PatchState :=
  { st with rowsDict := st.arena.enum.foldl (fun d ie =>
      match ie.2.attrGet "r" with
      | some r =>
        match parsePyInt r with
        | some v => idinsert d v ie.1
        | none => d
      | none => d) [] }

/-- Insertion index for a freshly created row: position of the first
existing `ns:row` child whose parsed `r` attribute strictly exceeds
the new row number, counted as in `enumerate(findall(ns:row))` and
used as an index into the full child list (exactly as the source
does). -/
def rowInsertPos (st : PatchState) (excelRow : Int) : Option Nat :=
  let rowIds := st.order.filterMap (fun s =>
    match s with
    | Sum.inl i => some i
    | Sum.inr _ => none)
  rowIds.findIdx? (fun i =>
    match (st.arena.getD i dummyXml).attrGet "r" with
    | some r =>
      match parsePyInt r with
      | some v => decide (v > excelRow)
      | none => false
    | none => false)

/-- Update batch element `(pd_row_idx, col_idx, value)` of
`apply_sheet_updates_preserve_images`. -/
abbrev SheetUpdate := Int × Int × String

/-- Body of the per-update loop of `_update_sheet_xml`: locate or
create the row for `pd_row_idx + 2`, locate or create the cell with
the computed reference, clear the cell's children, mark it as an
inline string and store the value (with the whitespace-preserve marker
when the value has a leading or trailing blank). -/
def applyOneUpdate (st0 : PatchState) (upd : SheetUpdate) : PatchState :=
  let excelRow : Int := upd.1 + 2
  let excelCol : Int := upd.2.1 + 1
  let cellRef : String := col_to_letter excelCol ++ toString excelRow
  let found := idget st0.rowsDict excelRow
  let st :=
    match found with
    | some _ => st0
    | none =>
      let newRow : Xml := .mk (nsTag "row") [("r", toString excelRow)] none .nil
      let newId := st0.arena.length
      let ord :=
        match rowInsertPos st0 excelRow with
        | some i => st0.order.insertIdx i (Sum.inl newId)
        | none => st0.order ++ [Sum.inl newId]
      { order := ord, arena := st0.arena ++ [newRow],
        rowsDict := idinsert st0.rowsDict excelRow newId }
  let rowId :=
    match found with
    | some id => id
    | none => st0.arena.length
  let row := st.arena.getD rowId dummyXml
  let cells := row.children.toList
  let cellIdx := cells.findIdx? (fun c => c.tag = nsTag "c" && c.attrGet "r" = some cellRef)
  let cells :=
    match cellIdx with
    | some _ => cells
    | none => cells ++ [Xml.mk (nsTag "c") [("r", cellRef)] none .nil]
  let j :=
    match cellIdx with
    | some j => j
    | none => cells.length - 1
  let cell := cells.getD j dummyXml
  let tAttrs : List (String × String) :=
    if strStartsWithChar upd.2.2 ' ' || strEndsWith upd.2.2 " " then [(xmlSpaceKey, "preserve")]
    else []
  let tElem : Xml := .mk (nsTag "t") tAttrs (some upd.2.2) .nil
  let isElem : Xml := .mk (nsTag "is") [] none (.cons tElem .nil)
  let cell' : Xml := .mk cell.tag (attrSet cell.attrs "t" "inlineStr") cell.text
    (.cons isElem .nil)
  let row' : Xml := .mk row.tag row.attrs row.text (XmlList.ofList (cells.set j cell'))
  { st with arena := st.arena.set rowId row' }

/-- Reassembly of the `sheetData` element from the final patch state. -/
def materializeSheetData (sd : Xml) (st : PatchState) : Xml :=
  .mk sd.tag sd.attrs sd.text (XmlList.ofList (st.order.map (fun s =>
    match s with
    | Sum.inl i => st.arena.getD i dummyXml
    | Sum.inr x => x)))

/-- Application of a whole update batch to one `sheetData` element. -/
def updateSheetData (sd : Xml) (updates : List SheetUpdate) : Xml :=
  materializeSheetData sd
    (updates.foldl applyOneUpdate (initRowsDict (initPatchState sd.children.toList)))

/-- Model of `ExcelProcessor._update_sheet_xml`: find the first direct
`ns:sheetData` child (creating an empty one at the end when absent)
and apply the update batch inside it; everything else in the document
is left untouched. -/
def update_sheet_xml (root : Xml) (updates : List SheetUpdate) : Xml :=
  let cs := root.children.toList
  match cs.findIdx? (fun c => c.tag = nsTag "sheetData") with
  | some i =>
    .mk root.tag root.attrs root.text
      (XmlList.ofList (cs.set i (updateSheetData (cs.getD i dummyXml) updates)))
  | none =>
    let sd : Xml := .mk (nsTag "sheetData") [] none .nil
    .mk root.tag root.attrs root.text (XmlList.ofList (cs ++ [updateSheetData sd updates]))

/-- Model of `ExcelProcessor.apply_sheet_updates_preserve_images`: do
nothing for an empty batch, a non-zip file, or an archive lacking the
target sheet part; otherwise rebuild the archive with every other
entry copied unchanged (read back by name, as
`zout.writestr(item, zin.read(item.filename))` does) and the patched
sheet document written last, the result atomically replacing the
original path (modelled as the returned file content).  The `.error`
case models the `ParseError` that `ET.fromstring` raises inside
`_update_sheet_xml` and that propagates to the caller, the file at the
original path staying untouched. -/
def apply_sheet_updates_preserve_images (f : XFile) (n : Int) (updates : List SheetUpdate) :
    Except String XFile :=
  if updates = [] then .ok f
  else match f with
  | .notZip _ => .ok f
  | .zip a =>
    let sp := sheetPath n
    match getPart a sp with
    | none => .ok f
    | some part =>
      match parsePart part with
      | none => .error "ParseError"
      | some sroot =>
        let newRoot := update_sheet_xml sroot updates
        let newArch : Archive :=
          (a.filterMap (fun e =>
            if e.1 = sp then none
            else some (e.1, (getPart a e.1).getD e.2))) ++ [(sp, ZPart.xml newRoot)]
        .ok (.zip newArch)

/-- Result record of `ExcelProcessor.parse_range`. -/
structure RangeInfo where
  col_idx : Int
  start_row : Int
  end_row : Int
  col_name : String
deriving DecidableEq, Repr

/-- Success test of the prefix match `([A-Z]+)([0-9]+)` performed by
the inner `parse` of `parse_range` (`re.match` without an end anchor,
so trailing junk is ignored). -/
def clausePrefixOk (s : List Char) : Bool :=
  !(s.takeWhile isUpperAlpha).isEmpty &&
    !(((s.dropWhile isUpperAlpha).takeWhile isDigitChar).isEmpty)

/-- Inner `parse` of `parse_range`: on a successful prefix match
return `(c_idx - 1, max(0, int(r_num) - 2))`, on failure `(0, 0)`. -/
def parseClause (s : List Char) : Int × Int :=
  if clausePrefixOk s then
    (colLettersVal (s.takeWhile isUpperAlpha) - 1,
     max 0 ((parseNatChars ((s.dropWhile isUpperAlpha).takeWhile isDigitChar) : Int) - 2))
  else (0, 0)

/-- Normalization and split pipeline of `parse_range`:
`range_str.upper().strip().replace('：', ':').split(':')`. -/
def rangeClauses (range_str : String) : List (List Char) :=
  splitOnChar ':' ((stripChars (range_str.data.map pyToUpper)).map
    (fun c => if c = '：' then ':' else c))

/-- Model of `ExcelProcessor.parse_range`: uppercase, strip, normalize
the fullwidth colon, split on `:`; the first clause gives column and
start row, the second clause (or `max_rows - 1` when absent) gives the
end row, clamped to `max_rows - 1`; the column label is the leading
letter group of the first clause. -/
def parse_range (range_str : String) (max_rows : Int) : RangeInfo :=
  let parts := rangeClauses range_str
  let first := parts.headD []
  let sc := (parseClause first).1
  let sr := (parseClause first).2
  let er :=
    match parts with
    | _ :: second :: _ => (parseClause second).2
    | _ => max_rows - 1
  { col_idx := sc, start_row := sr, end_row := min er (max_rows - 1),
    col_name := ⟨first.takeWhile isUpperAlpha⟩ }

/-- Full-clause matcher `^[A-Z]+[0-9]+(:[A-Z]+[0-9]+)?$` of
`validate_coord_format`. -/
def matchFullClause (s : List Char) : Bool :=
  let letters := s.takeWhile isUpperAlpha
  let r1 := s.dropWhile isUpperAlpha
  let digits := r1.takeWhile isDigitChar
  let r2 := r1.dropWhile isDigitChar
  if letters = [] || digits = [] then false
  else match r2 with
    | [] => true
    | ':' :: r3 =>
      let l2 := r3.takeWhile isUpperAlpha
      let r4 := r3.dropWhile isUpperAlpha
      let d2 := r4.takeWhile isDigitChar
      let r5 := r4.dropWhile isDigitChar
      l2 ≠ [] && d2 ≠ [] && r5 = []
    | _ => false

/-- Per-clause loop of `validate_coord_format`: the regex check on the
stripped clause, then (for single-column tools) the comparison of the
first characters of the two sides of an unstripped range clause. -/
def checkParts (isSingle : Bool) : List (List Char) → Bool × String
  | [] => (true, "")
  | p :: rest =>
    if ¬ matchFullClause (stripChars p) then (false, "Invalid coords: " ++ ⟨p⟩)
    else if isSingle && p.contains ':' then
      let seg := splitOnChar ':' p
      let a := (seg.headD []).headD ' '
      let b := ((seg.drop 1).headD []).headD ' '
      if a ≠ b then (false, "Single col tool cannot span columns.")
      else checkParts isSingle rest
    else checkParts isSingle rest

/-- Model of `ExcelProcessor.validate_coord_format`: emptiness check,
normalization (strip, upper, fullwidth colon and comma), the
multi-column rejection for single-column tools, then the per-clause
loop. -/
def validate_coord_format (coord : String) (is_single_col_tool : Bool) : Bool × String :=
  if coord = "" || stripChars coord.data = [] then (false, "Column cannot be empty.")
  else
    let c := ((stripChars coord.data).map pyToUpper).map
      (fun ch => if ch = '：' then ':' else if ch = '，' then ',' else ch)
    if is_single_col_tool && c.contains ',' then
      (false, "Single column tool does not support multiple columns.")
    else checkParts is_single_col_tool (splitOnChar ',' c)

/-- Modelled from the documented behavior of `pandas.read_excel` with
an integer `sheet_name` (the library is outside this repository): the
0-based index selects a sheet and an out-of-range index raises a
`ValueError`, modelled as `.error`. -/
def readExcelSheet (sheets : List α) (idx : Int) : Except String α :=
  match pyGet sheets idx with
  | some t => .ok t
  | none => .error "Worksheet index is invalid"

/-- Sheet-selection slice of `ExcelProcessor.load_file_with_copy`
(lines 72-93): the `.csv` branch reads the single table ignoring the
selector; every other extension goes through
`pd.read_excel(..., sheet_name=sheet_number - 1)`, whose failure is
re-raised by the `except` clause after deleting the temporary files,
so the error propagates to the caller. -/
def loadSelectedSheet (ext : String) (csvTable : α) (sheets : List α) (sheetNumber : Int) :
    Except String α :=
  if ext = ".csv" then .ok csvTable
  else readExcelSheet sheets (sheetNumber - 1)

/-- Byte content standing in for a PNG payload in the concrete
packages below. -/
def imgBytes : List Nat := [137, 80, 78, 71]

/-- Qualified relationship-id attribute key as ElementTree reports it. -/
def rIdKey : String :=
  "\x7bhttp://schemas.openxmlformats.org/officeDocument/2006/relationships\x7did"

/-- Qualified blip embed attribute key as ElementTree reports it. -/
def embedKey : String :=
  "\x7bhttp://schemas.openxmlformats.org/drawingml/2006/main\x7dembed"

/-- Relationship document with the given id/target pairs. -/
def relsDoc (prs : List (String × String)) : Xml :=
  .mk "Relationships" [] none (XmlList.ofList (prs.map (fun kv =>
    Xml.mk "Relationship" [("Id", kv.1), ("Target", kv.2)] none .nil)))

/-- Cell-image part anchoring one blip at the given cell reference. -/
def cellImagesDoc (ref : String) : Xml :=
  .mk "etc" [] none (.cons
    (.mk "cellImage" [("ref", ref)] none (.cons
      (.mk "blip" [(embedKey, "rId7")] none .nil) .nil)) .nil)

/-- Concrete package whose sheet 1 reaches one image only through a
cell-image part anchored at the given cell reference. -/
def cellImagesArchive (ref : String) : Archive :=
  [("xl/worksheets/sheet1.xml", .xml (.mk "worksheet" [] none .nil)),
   ("xl/worksheets/_rels/sheet1.xml.rels", .xml (relsDoc [("rId1", "../../cellimages.xml")])),
   ("xl/cellimages.xml", .xml (cellImagesDoc ref)),
   ("xl/_rels/cellimages.xml.rels", .xml (relsDoc [("rId7", "../media/image1.png")])),
   ("xl/media/image1.png", .bin imgBytes)]

/-- Drawing part with one `oneCellAnchor` at the given `from` row,
column 0, embedding `rId2`. -/
def drawingDoc (row : String) : Xml :=
  .mk "wsDr" [] none (.cons
    (.mk "oneCellAnchor" [] none (.cons
      (.mk "from" [] none (.cons (.mk "row" [] (some row) .nil)
        (.cons (.mk "col" [] (some "0") .nil) .nil)))
      (.cons (.mk "pic" [] none (.cons (.mk "blip" [(embedKey, "rId2")] none .nil) .nil))
        .nil))) .nil)

/-- Concrete sheet document with one data row holding cell `A2` and a
`drawing` element pointing at `rId1`. -/
def sheetDoc : Xml :=
  .mk "worksheet" [] none (.cons
    (.mk (nsTag "sheetData") [] none (.cons
      (.mk (nsTag "row") [("r", "2")] none (.cons
        (.mk (nsTag "c") [("r", "A2")] none .nil) .nil)) .nil))
    (.cons (.mk "drawing" [(rIdKey, "rId1")] none .nil) .nil))

/-- Concrete package whose sheet 1 anchors one image through the
drawing-XML mechanism at the given `from` row of column 0. -/
def drawingArchive (row : String) : Archive :=
  [("xl/worksheets/sheet1.xml", .xml sheetDoc),
   ("xl/worksheets/_rels/sheet1.xml.rels", .xml (relsDoc [("rId1", "../../drawings/drawing1.xml")])),
   ("xl/drawings/drawing1.xml", .xml (drawingDoc row)),
   ("xl/drawings/_rels/drawing1.xml.rels", .xml (relsDoc [("rId2", "../../media/image1.png")])),
   ("xl/media/image1.png", .bin imgBytes)]

/-- Workbook view with one image-free worksheet, standing in for the
openpyxl view of the concrete packages above. -/
def wb0 : Workbook := ⟨[⟨[]⟩], ⟨[]⟩⟩

/-- Data URI of `imgBytes` as every encoder in the file produces it. -/
def imgUri : String := "data:image/png;base64,iVBORw=="

/-- Value of the bijective base-26 decoding loop on an appended
character. -/
theorem colLettersVal_append (l : List Char) (c : Char) :
    colLettersVal (l ++ [c]) = colLettersVal l * 26 + ((c.toNat : Int) - 65 + 1) := by
  simp [colLettersVal, List.foldl_append]

/-- Code point of an uppercase letter built from a base-26 remainder. -/
theorem toNat_ofNat_letter (r : Nat) (h : r < 26) : ((Char.ofNat (65 + r)).toNat : Int) = 65 + r := by
  interval_cases r <;> decide

/-- The `_col_to_letter` loop inverts the base-26 decoding loop for
any sufficient fuel. -/
theorem colLettersVal_colToLetterGo (fuel : Nat) : ∀ col : Nat, col ≤ fuel →
    colLettersVal (colToLetterGo fuel col) = col := by
  induction fuel with
  | zero =>
    intro col h
    interval_cases col
    simp [colToLetterGo, colLettersVal]
  | succ fuel ih =>
    intro col h
    cases col with
    | zero => simp [colToLetterGo, colLettersVal]
    | succ c =>
      rw [colToLetterGo, colLettersVal_append]
      rw [ih (c / 26) (le_trans (Nat.div_le_self c 26) (Nat.lt_succ_iff.mp h))]
      rw [toNat_ofNat_letter (c % 26) (Nat.mod_lt _ (by norm_num))]
      have hdm : 26 * (c / 26) + c % 26 = c := Nat.div_add_mod c 26
      push_cast
      omega

/-- C8: for every 0-based column index `i`, encoding `i + 1` with
`_col_to_letter` (exactly the composition `_update_sheet_xml` uses,
`_col_to_letter(col_idx + 1)`) and decoding the letters with the
shared base-26 loop of `_cell_ref_to_pd_indices` / `parse_range`
(minus one, back to 0-based) returns `i`; in particular the indices of
A, Z, AA, AZ and BA round-trip. -/
theorem c8_column_codec_roundtrip (i : Nat) :
    colLettersVal (col_to_letter ((i : Int) + 1)).data - 1 = (i : Int) := by
  have ht : ((i : Int) + 1).toNat = i + 1 := by omega
  have hd : (col_to_letter ((i : Int) + 1)).data = colToLetterGo (i + 1) (i + 1) := by
    simp [col_to_letter, ht]
  rw [hd, colLettersVal_colToLetterGo (i + 1) (i + 1) le_rfl]
  omega

/-- Uppercase letters are not whitespace. -/
theorem upper_not_space (c : Char) (h : isUpperAlpha c = true) : isSpaceChar c = false := by
  simp [isUpperAlpha] at h
  simp [isSpaceChar]
  omega

/-- Digits are not whitespace. -/
theorem digit_not_space (c : Char) (h : isDigitChar c = true) : isSpaceChar c = false := by
  simp [isDigitChar] at h
  simp [isSpaceChar]
  omega

/-- Digits are not uppercase letters. -/
theorem digit_not_upper (c : Char) (h : isDigitChar c = true) : isUpperAlpha c = false := by
  simp [isDigitChar] at h
  simp [isUpperAlpha]
  omega

/-- Uppercase letters are not digits. -/
theorem upper_not_digit (c : Char) (h : isUpperAlpha c = true) : isDigitChar c = false := by
  simp [isUpperAlpha] at h
  simp [isDigitChar]
  omega

/-- Uppercasing fixes uppercase letters. -/
theorem pyToUpper_upper (c : Char) (h : isUpperAlpha c = true) : pyToUpper c = c := by
  simp [isUpperAlpha] at h
  simp [pyToUpper]
  omega

/-- Uppercasing fixes digits. -/
theorem pyToUpper_digit (c : Char) (h : isDigitChar c = true) : pyToUpper c = c := by
  simp [isDigitChar] at h
  simp [pyToUpper]
  omega

/-- Uppercase letters differ from the fullwidth colon. -/
theorem upper_ne_fullcolon (c : Char) (h : isUpperAlpha c = true) : c ≠ '：' := by
  intro he
  rw [he] at h
  exact absurd h (by decide)

/-- Digits differ from the fullwidth colon. -/
theorem digit_ne_fullcolon (c : Char) (h : isDigitChar c = true) : c ≠ '：' := by
  intro he
  rw [he] at h
  exact absurd h (by decide)

/-- Uppercase letters differ from the fullwidth comma. -/
theorem upper_ne_fullcomma (c : Char) (h : isUpperAlpha c = true) : c ≠ '，' := by
  intro he
  rw [he] at h
  exact absurd h (by decide)

/-- Digits differ from the fullwidth comma. -/
theorem digit_ne_fullcomma (c : Char) (h : isDigitChar c = true) : c ≠ '，' := by
  intro he
  rw [he] at h
  exact absurd h (by decide)

/-- Uppercase letters differ from the plain colon. -/
theorem upper_ne_colon (c : Char) (h : isUpperAlpha c = true) : c ≠ ':' := by
  intro he
  rw [he] at h
  exact absurd h (by decide)

/-- Digits differ from the plain colon. -/
theorem digit_ne_colon (c : Char) (h : isDigitChar c = true) : c ≠ ':' := by
  intro he
  rw [he] at h
  exact absurd h (by decide)

/-- Uppercase letters differ from the plain comma. -/
theorem upper_ne_comma (c : Char) (h : isUpperAlpha c = true) : c ≠ ',' := by
  intro he
  rw [he] at h
  exact absurd h (by decide)

/-- Digits differ from the plain comma. -/
theorem digit_ne_comma (c : Char) (h : isDigitChar c = true) : c ≠ ',' := by
  intro he
  rw [he] at h
  exact absurd h (by decide)

/-- A list whose members all fail the predicate is fixed by
`dropWhile`. -/
theorem dropWhile_all_false {α : Type} (P : α → Bool) (l : List α)
    (h : ∀ c ∈ l, P c = false) : l.dropWhile P = l := by
  cases l with
  | nil => rfl
  | cons a t =>
    rw [List.dropWhile_cons, h a (List.mem_cons_self a t)]
    simp

/-- A list whose members all fail the whitespace test is fixed by
`strip`. -/
theorem stripChars_eq_self (l : List Char) (h : ∀ c ∈ l, isSpaceChar c = false) :
    stripChars l = l := by
  unfold stripChars
  rw [dropWhile_all_false _ _ h]
  rw [dropWhile_all_false _ _ (fun c hc => h c (List.mem_reverse.mp hc))]
  simp

/-- A map whose function fixes every member is the identity. -/
theorem map_eq_self {α : Type} (f : α → α) (l : List α) (h : ∀ c ∈ l, f c = c) :
    l.map f = l := by
  rw [List.map_congr_left h]
  simp

/-- Splitting on a separator absent from the list produces one part. -/
theorem splitOnChar_no_sep (sep : Char) (l : List Char) (h : ∀ c ∈ l, c ≠ sep) :
    splitOnChar sep l = [l] := by
  induction l with
  | nil => rfl
  | cons a t ih =>
    rw [splitOnChar]
    rw [ih (fun c hc => h c (List.mem_cons_of_mem a hc))]
    simp [h a (List.mem_cons_self a t)]

/-- Splitting at the first separator occurrence splits off the prefix. -/
theorem splitOnChar_append_sep (sep : Char) (a b : List Char) (h : ∀ c ∈ a, c ≠ sep) :
    splitOnChar sep (a ++ sep :: b) = a :: splitOnChar sep b := by
  induction a with
  | nil => simp [splitOnChar]
  | cons x t ih =>
    rw [List.cons_append, splitOnChar]
    rw [ih (fun c hc => h c (List.mem_cons_of_mem x hc))]
    simp [h x (List.mem_cons_self x t)]

/-- `takeWhile` passes an all-true prefix through. -/
theorem takeWhile_append_all {α : Type} (P : α → Bool) (l1 l2 : List α)
    (h : ∀ c ∈ l1, P c = true) : (l1 ++ l2).takeWhile P = l1 ++ l2.takeWhile P := by
  induction l1 with
  | nil => rfl
  | cons a t ih =>
    rw [List.cons_append, List.takeWhile_cons, h a (List.mem_cons_self a t)]
    rw [ih (fun c hc => h c (List.mem_cons_of_mem a hc))]
    simp

/-- `dropWhile` consumes an all-true prefix. -/
theorem dropWhile_append_all {α : Type} (P : α → Bool) (l1 l2 : List α)
    (h : ∀ c ∈ l1, P c = true) : (l1 ++ l2).dropWhile P = l2.dropWhile P := by
  induction l1 with
  | nil => rfl
  | cons a t ih =>
    rw [List.cons_append, List.dropWhile_cons, h a (List.mem_cons_self a t)]
    simp only []
    exact ih (fun c hc => h c (List.mem_cons_of_mem a hc))

/-- An all-true list is fixed by `takeWhile`. -/
theorem takeWhile_all {α : Type} (P : α → Bool) (l : List α)
    (h : ∀ c ∈ l, P c = true) : l.takeWhile P = l := by
  have := takeWhile_append_all P l [] h
  simpa using this

/-- An all-true list is consumed by `dropWhile`. -/
theorem dropWhile_all {α : Type} (P : α → Bool) (l : List α)
    (h : ∀ c ∈ l, P c = true) : l.dropWhile P = [] := by
  have := dropWhile_append_all P l [] h
  simpa using this

/-- A list headed by a failing element is truncated by `takeWhile`. -/
theorem takeWhile_head_false {α : Type} (P : α → Bool) (a : α) (t : List α)
    (h : P a = false) : (a :: t).takeWhile P = [] := by
  simp [List.takeWhile_cons, h]

/-- A list headed by a failing element is fixed by `dropWhile`. -/
theorem dropWhile_head_false {α : Type} (P : α → Bool) (a : α) (t : List α)
    (h : P a = false) : (a :: t).dropWhile P = a :: t := by
  simp [List.dropWhile_cons, h]

/-- Containment fails on a list avoiding the element. -/
theorem contains_false_of_ne {l : List Char} {x : Char} (h : ∀ c ∈ l, c ≠ x) :
    l.contains x = false := by
  induction l with
  | nil => rfl
  | cons a t ih =>
    simp only [List.contains_cons]
    rw [ih (fun c hc => h c (List.mem_cons_of_mem a hc))]
    have hax := h a (List.mem_cons_self a t)
    simp [beq_eq_false_iff_ne]
    exact fun he => hax he.symm

/-- Containment holds at a member. -/
theorem contains_true_of_mem {l : List Char} {x : Char} (h : x ∈ l) :
    l.contains x = true := by
  simp [List.contains_eq_any_beq]
  exact h

/-- Normalization pipeline facts for characters drawn from a clause:
uppercase letters and digits pass the upper map, the strip, and the
fullwidth replacements unchanged. -/
theorem clauseChar_id (c : Char) (h : isUpperAlpha c = true ∨ isDigitChar c = true) :
    pyToUpper c = c ∧ isSpaceChar c = false ∧ c ≠ '：' ∧ c ≠ '，' := by
  rcases h with h | h
  · exact ⟨pyToUpper_upper c h, upper_not_space c h, upper_ne_fullcolon c h,
      upper_ne_fullcomma c h⟩
  · exact ⟨pyToUpper_digit c h, digit_not_space c h, digit_ne_fullcolon c h,
      digit_ne_fullcomma c h⟩

/-- The `parse_range` normalization is the identity on a clause list
made of uppercase letters, digits and plain colons, so the split
yields the raw colon-separated clauses. -/
theorem rangeClauses_of_clean (l : List Char)
    (h : ∀ c ∈ l, isUpperAlpha c = true ∨ isDigitChar c = true ∨ c = ':') :
    rangeClauses ⟨l⟩ = splitOnChar ':' l := by
  unfold rangeClauses
  have hup : ∀ c ∈ l, pyToUpper c = c := by
    intro c hc
    rcases h c hc with h1 | h1 | h1
    · exact pyToUpper_upper c h1
    · exact pyToUpper_digit c h1
    · rw [h1]; decide
  have hsp : ∀ c ∈ l, isSpaceChar c = false := by
    intro c hc
    rcases h c hc with h1 | h1 | h1
    · exact upper_not_space c h1
    · exact digit_not_space c h1
    · rw [h1]; decide
  have hfc : ∀ c ∈ l, c ≠ '：' := by
    intro c hc
    rcases h c hc with h1 | h1 | h1
    · exact upper_ne_fullcolon c h1
    · exact digit_ne_fullcolon c h1
    · rw [h1]; decide
  show splitOnChar ':' (((stripChars ((String.mk l).data.map pyToUpper)).map
    (fun c => if c = '：' then ':' else c))) = splitOnChar ':' l
  have h1 : (String.mk l).data = l := rfl
  rw [h1, map_eq_self pyToUpper l hup, stripChars_eq_self l hsp]
  rw [map_eq_self _ l (fun c hc => by simp [hfc c hc])]

/-- `parseClause` on a well-formed letters-then-digits clause. -/
theorem parseClause_wf (cols digits : List Char)
    (hc : cols ≠ []) (hcall : ∀ c ∈ cols, isUpperAlpha c = true)
    (hd : digits ≠ []) (hdall : ∀ c ∈ digits, isDigitChar c = true) :
    parseClause (cols ++ digits) =
      (colLettersVal cols - 1, max 0 ((parseNatChars digits : Int) - 2)) := by
  obtain ⟨d0, ds, rfl⟩ := List.exists_cons_of_ne_nil hd
  have htw : (cols ++ d0 :: ds).takeWhile isUpperAlpha = cols := by
    rw [takeWhile_append_all _ _ _ hcall,
      takeWhile_head_false _ _ _ (digit_not_upper d0 (hdall d0 (List.mem_cons_self d0 ds)))]
    simp
  have hdw : (cols ++ d0 :: ds).dropWhile isUpperAlpha = d0 :: ds := by
    rw [dropWhile_append_all _ _ _ hcall,
      dropWhile_head_false _ _ _ (digit_not_upper d0 (hdall d0 (List.mem_cons_self d0 ds)))]
  have hdd : (d0 :: ds).takeWhile isDigitChar = d0 :: ds := takeWhile_all _ _ hdall
  unfold parseClause clausePrefixOk
  rw [htw, hdw, hdd]
  simp [hc]

/-- C4 pipeline: `parse_range` on a well-formed single-cell
expression. -/
theorem parse_range_single_cell (cols digits : List Char) (mr : Int)
    (hc : cols ≠ []) (hcall : ∀ c ∈ cols, isUpperAlpha c = true)
    (hd : digits ≠ []) (hdall : ∀ c ∈ digits, isDigitChar c = true) :
    parse_range ⟨cols ++ digits⟩ mr =
      { col_idx := colLettersVal cols - 1,
        start_row := max 0 ((parseNatChars digits : Int) - 2),
        end_row := min (mr - 1) (mr - 1),
        col_name := ⟨cols⟩ } := by
  have hclean : ∀ c ∈ cols ++ digits, isUpperAlpha c = true ∨ isDigitChar c = true ∨ c = ':' := by
    intro c hc0
    rcases List.mem_append.mp hc0 with h1 | h1
    · exact Or.inl (hcall c h1)
    · exact Or.inr (Or.inl (hdall c h1))
  have hsplit : rangeClauses ⟨cols ++ digits⟩ = [cols ++ digits] := by
    rw [rangeClauses_of_clean _ hclean]
    refine splitOnChar_no_sep _ _ ?_
    intro c hc0
    rcases List.mem_append.mp hc0 with h1 | h1
    · exact upper_ne_colon c (hcall c h1)
    · exact digit_ne_colon c (hdall c h1)
  obtain ⟨d0, ds, hde⟩ := List.exists_cons_of_ne_nil hd
  unfold parse_range
  rw [hsplit]
  simp only [List.headD_cons]
  rw [parseClause_wf cols digits hc hcall hd hdall]
  have htw : (cols ++ digits).takeWhile isUpperAlpha = cols := by
    subst hde
    rw [takeWhile_append_all _ _ _ hcall,
      takeWhile_head_false _ _ _ (digit_not_upper d0 (hdall d0 (List.mem_cons_self d0 ds)))]
    simp
  rw [htw]

/-- C4 pipeline: `parse_range` on a well-formed explicit range
expression. -/
theorem parse_range_explicit (c1 d1 c2 d2 : List Char) (mr : Int)
    (hc1 : c1 ≠ []) (hc1a : ∀ c ∈ c1, isUpperAlpha c = true)
    (hd1 : d1 ≠ []) (hd1a : ∀ c ∈ d1, isDigitChar c = true)
    (hc2 : c2 ≠ []) (hc2a : ∀ c ∈ c2, isUpperAlpha c = true)
    (hd2 : d2 ≠ []) (hd2a : ∀ c ∈ d2, isDigitChar c = true) :
    parse_range ⟨c1 ++ d1 ++ ':' :: (c2 ++ d2)⟩ mr =
      { col_idx := colLettersVal c1 - 1,
        start_row := max 0 ((parseNatChars d1 : Int) - 2),
        end_row := min (max 0 ((parseNatChars d2 : Int) - 2)) (mr - 1),
        col_name := ⟨c1⟩ } := by
  have hmem1 : ∀ c ∈ c1 ++ d1, isUpperAlpha c = true ∨ isDigitChar c = true := by
    intro c hc0
    rcases List.mem_append.mp hc0 with h1 | h1
    · exact Or.inl (hc1a c h1)
    · exact Or.inr (hd1a c h1)
  have hclean : ∀ c ∈ (c1 ++ d1 ++ ':' :: (c2 ++ d2)),
      isUpperAlpha c = true ∨ isDigitChar c = true ∨ c = ':' := by
    intro c hc0
    rw [List.append_assoc] at hc0
    rcases List.mem_append.mp hc0 with h1 | h1
    · exact Or.inl (hc1a c h1)
    · rcases List.mem_append.mp h1 with h2 | h2
      · exact Or.inr (Or.inl (hd1a c h2))
      · rcases List.mem_cons.mp h2 with h3 | h3
        · exact Or.inr (Or.inr h3)
        · rcases List.mem_append.mp h3 with h4 | h4
          · exact Or.inl (hc2a c h4)
          · exact Or.inr (Or.inl (hd2a c h4))
  have hsplit : rangeClauses ⟨c1 ++ d1 ++ ':' :: (c2 ++ d2)⟩ = [c1 ++ d1, c2 ++ d2] := by
    rw [rangeClauses_of_clean _ hclean]
    rw [show c1 ++ d1 ++ ':' :: (c2 ++ d2) = (c1 ++ d1) ++ ':' :: (c2 ++ d2) from rfl]
    rw [splitOnChar_append_sep ':' (c1 ++ d1) (c2 ++ d2) ?hns]
    case hns =>
      intro c hc0
      rcases List.mem_append.mp hc0 with h1 | h1
      · exact upper_ne_colon c (hc1a c h1)
      · exact digit_ne_colon c (hd1a c h1)
    rw [splitOnChar_no_sep ':' (c2 ++ d2) ?hns2]
    case hns2 =>
      intro c hc0
      rcases List.mem_append.mp hc0 with h1 | h1
      · exact upper_ne_colon c (hc2a c h1)
      · exact digit_ne_colon c (hd2a c h1)
  obtain ⟨d0, ds, hde⟩ := List.exists_cons_of_ne_nil hd1
  unfold parse_range
  rw [hsplit]
  simp only [List.headD_cons]
  rw [parseClause_wf c1 d1 hc1 hc1a hd1 hd1a, parseClause_wf c2 d2 hc2 hc2a hd2 hd2a]
  have htw : (c1 ++ d1).takeWhile isUpperAlpha = c1 := by
    subst hde
    rw [takeWhile_append_all _ _ _ hc1a,
      takeWhile_head_false _ _ _ (digit_not_upper d0 (hd1a d0 (List.mem_cons_self d0 ds)))]
    simp
  rw [htw]

/-- C4: a valid single-cell expression resolves to
`start_row = max(0, Row - 2)` and `end_row = max_rows - 1` (the last
data row), and an explicit range whose parsed end row exceeds the
table's extent has its `end_row` silently clamped to `max_rows - 1`. -/
theorem c4_parse_range_row_resolution (cols digits : List Char) (mr : Int)
    (hc : cols ≠ []) (hcall : ∀ c ∈ cols, isUpperAlpha c = true)
    (hd : digits ≠ []) (hdall : ∀ c ∈ digits, isDigitChar c = true)
    (hmr : 1 ≤ mr) :
    ((parse_range ⟨cols ++ digits⟩ mr).start_row = max 0 ((parseNatChars digits : Int) - 2) ∧
      (parse_range ⟨cols ++ digits⟩ mr).end_row = mr - 1) ∧
    (∀ c2 d2 : List Char, c2 ≠ [] → (∀ c ∈ c2, isUpperAlpha c = true) →
      d2 ≠ [] → (∀ c ∈ d2, isDigitChar c = true) →
      mr - 1 < (parseNatChars d2 : Int) - 2 →
      (parse_range ⟨cols ++ digits ++ ':' :: (c2 ++ d2)⟩ mr).end_row = mr - 1) := by
  constructor
  · rw [parse_range_single_cell cols digits mr hc hcall hd hdall]
    exact ⟨rfl, by simp⟩
  · intro c2 d2 hc2 hc2a hd2 hd2a hgt
    rw [parse_range_explicit cols digits c2 d2 mr hc hcall hd hdall hc2 hc2a hd2 hd2a]
    simp only []
    omega

/-- C4 witness: `parse_range("D2", 5)` starts at data row 0 and ends at
data row 4, and `parse_range("A2:A99", 5)` is clamped to end row 4. -/
theorem c4_witness :
    ((parse_range "D2" 5).start_row = max 0 ((parseNatChars ['2'] : Int) - 2) ∧
      (parse_range "D2" 5).end_row = 4) ∧
    (parse_range "A2:A99" 5).end_row = 4 := by
  have h := c4_parse_range_row_resolution ['D'] ['2'] 5 (by decide)
    (by intro c hc; fin_cases hc; decide) (by decide)
    (by intro c hc; fin_cases hc; decide) (by decide)
  refine ⟨h.1, ?_⟩
  have h2 := c4_parse_range_row_resolution ['A'] ['2'] 5 (by decide)
    (by intro c hc; fin_cases hc; decide) (by decide)
    (by intro c hc; fin_cases hc; decide) (by decide)
  have h3 := h2.2 ['A'] ['9', '9'] (by decide)
    (by intro c hc; fin_cases hc; decide) (by decide)
    (by intro c hc; fin_cases hc <;> decide) (by decide)
  exact h3


/-- C6 counterexample: `parse_range` on the malformed expression
`"@@"` does not fail — it returns a definite `RangeInfo` (the
`return 0, 0` fallback of the inner parse), so construction from a
malformed expression yields a result instead of raising a
`FormatError`.  No operation on this code path can raise: the regex
non-match is handled by the fallback and `int` is only applied to a
matched digit group. -/
theorem c6_counterexample_parse_range_returns :
    parse_range "@@" 5 = { col_idx := 0, start_row := 0, end_row := 4, col_name := "" } := by
  decide

/-- C6 amended: `parse_range` never raises on a malformed clause; when
the first clause fails the `([A-Z]+)([0-9]+)` prefix match it returns
normally with the fallback column index 0 and start row 0 (the
expression is instead rejected separately by `validate_coord_format`
before the tools ever call `parse_range`). -/
theorem c6_malformed_returns_default (s : String) (mr : Int)
    (h : clausePrefixOk ((rangeClauses s).headD []) = false) :
    (parse_range s mr).col_idx = 0 ∧ (parse_range s mr).start_row = 0 := by
  simp only [parse_range, parseClause]
  rw [h]
  simp

/-- C6 witness: the amended theorem applied at the malformed
expression `"@@"`. -/
theorem c6_witness :
    clausePrefixOk ((rangeClauses "@@").headD []) = false ∧
      (parse_range "@@" 5).col_idx = 0 ∧ (parse_range "@@" 5).start_row = 0 :=
  ⟨by decide, c6_malformed_returns_default "@@" 5 (by decide)⟩

/-- C5 counterexample: `validate_coord_format` accepts the
cross-column range `"AA2:AB5"` for a single-column tool, because the
check compares only `part.split(':')[0][0]` with
`part.split(':')[1][0]`, the first characters of the two sides. -/
theorem c5_counterexample_multiletter_accepted :
    validate_coord_format "AA2:AB5" true = (true, "") := by
  decide

/-- The clause matcher accepts a well-formed range clause. -/
theorem matchFullClause_range (c1 d1 c2 d2 : List Char)
    (hc1 : c1 ≠ []) (hc1a : ∀ c ∈ c1, isUpperAlpha c = true)
    (hd1 : d1 ≠ []) (hd1a : ∀ c ∈ d1, isDigitChar c = true)
    (hc2 : c2 ≠ []) (hc2a : ∀ c ∈ c2, isUpperAlpha c = true)
    (hd2 : d2 ≠ []) (hd2a : ∀ c ∈ d2, isDigitChar c = true) :
    matchFullClause (c1 ++ d1 ++ ':' :: (c2 ++ d2)) = true := by
  obtain ⟨e0, es, rfl⟩ := List.exists_cons_of_ne_nil hd1
  obtain ⟨f0, fs, rfl⟩ := List.exists_cons_of_ne_nil hd2
  unfold matchFullClause
  have h1 : (c1 ++ (e0 :: es) ++ ':' :: (c2 ++ f0 :: fs)).takeWhile isUpperAlpha = c1 := by
    rw [List.append_assoc, takeWhile_append_all _ _ _ hc1a, List.cons_append,
      takeWhile_head_false _ _ _ (digit_not_upper e0 (hd1a e0 (List.mem_cons_self e0 es)))]
    simp
  have h2 : (c1 ++ (e0 :: es) ++ ':' :: (c2 ++ f0 :: fs)).dropWhile isUpperAlpha =
      (e0 :: es) ++ ':' :: (c2 ++ f0 :: fs) := by
    rw [List.append_assoc, dropWhile_append_all _ _ _ hc1a, List.cons_append,
      dropWhile_head_false _ _ _ (digit_not_upper e0 (hd1a e0 (List.mem_cons_self e0 es)))]
  have h3 : ((e0 :: es) ++ ':' :: (c2 ++ f0 :: fs)).takeWhile isDigitChar = e0 :: es := by
    rw [takeWhile_append_all _ _ _ hd1a, takeWhile_head_false _ _ _ (by decide)]
    simp
  have h4 : ((e0 :: es) ++ ':' :: (c2 ++ f0 :: fs)).dropWhile isDigitChar =
      ':' :: (c2 ++ f0 :: fs) := by
    rw [dropWhile_append_all _ _ _ hd1a, dropWhile_head_false _ _ _ (by decide)]
  have h5 : (c2 ++ f0 :: fs).takeWhile isUpperAlpha = c2 := by
    rw [takeWhile_append_all _ _ _ hc2a,
      takeWhile_head_false _ _ _ (digit_not_upper f0 (hd2a f0 (List.mem_cons_self f0 fs)))]
    simp
  have h6 : (c2 ++ f0 :: fs).dropWhile isUpperAlpha = f0 :: fs := by
    rw [dropWhile_append_all _ _ _ hc2a,
      dropWhile_head_false _ _ _ (digit_not_upper f0 (hd2a f0 (List.mem_cons_self f0 fs)))]
  have h7 : (f0 :: fs).takeWhile isDigitChar = f0 :: fs := takeWhile_all _ _ hd2a
  have h8 : (f0 :: fs).dropWhile isDigitChar = [] := dropWhile_all _ _ hd2a
  simp only [h1, h2, h3, h4, h5, h6, h7, h8]
  simp [hc1, hc2]

/-- C5 amended: for a single-column tool and a well-formed range
clause, `validate_coord_format` compares only the first characters of
the two sides: it rejects exactly when the first letters differ, so
`A2:B5` is rejected while both `A2:A5` and the cross-column
`AA2:AB5` are accepted. -/
theorem c5_single_col_first_letter_only (c1 d1 c2 d2 : List Char)
    (hc1 : c1 ≠ []) (hc1a : ∀ c ∈ c1, isUpperAlpha c = true)
    (hd1 : d1 ≠ []) (hd1a : ∀ c ∈ d1, isDigitChar c = true)
    (hc2 : c2 ≠ []) (hc2a : ∀ c ∈ c2, isUpperAlpha c = true)
    (hd2 : d2 ≠ []) (hd2a : ∀ c ∈ d2, isDigitChar c = true) :
    validate_coord_format ⟨c1 ++ d1 ++ ':' :: (c2 ++ d2)⟩ true =
      if c1.headD ' ' = c2.headD ' ' then (true, "")
      else (false, "Single col tool cannot span columns.") := by
  have hmatch : matchFullClause (c1 ++ d1 ++ ':' :: (c2 ++ d2)) = true :=
    matchFullClause_range c1 d1 c2 d2 hc1 hc1a hd1 hd1a hc2 hc2a hd2 hd2a
  have hmem : ∀ c ∈ c1 ++ d1 ++ ':' :: (c2 ++ d2),
      isUpperAlpha c = true ∨ isDigitChar c = true ∨ c = ':' := by
    intro c hc0
    rw [List.append_assoc] at hc0
    rcases List.mem_append.mp hc0 with h1 | h1
    · exact Or.inl (hc1a c h1)
    · rcases List.mem_append.mp h1 with h2 | h2
      · exact Or.inr (Or.inl (hd1a c h2))
      · rcases List.mem_cons.mp h2 with h3 | h3
        · exact Or.inr (Or.inr h3)
        · rcases List.mem_append.mp h3 with h4 | h4
          · exact Or.inl (hc2a c h4)
          · exact Or.inr (Or.inl (hd2a c h4))
  set l := c1 ++ d1 ++ ':' :: (c2 ++ d2) with hl
  have hne : l ≠ [] := by
    rw [hl]
    rcases c1 with _ | ⟨a, t⟩
    · simp at hc1
    · simp
  have hid : ∀ c ∈ l, pyToUpper c = c ∧ isSpaceChar c = false ∧ c ≠ '：' ∧ c ≠ '，' ∧ c ≠ ',' := by
    intro c hc0
    rcases hmem c hc0 with h1 | h1 | h1
    · exact ⟨pyToUpper_upper c h1, upper_not_space c h1, upper_ne_fullcolon c h1,
        upper_ne_fullcomma c h1, upper_ne_comma c h1⟩
    · exact ⟨pyToUpper_digit c h1, digit_not_space c h1, digit_ne_fullcolon c h1,
        digit_ne_fullcomma c h1, digit_ne_comma c h1⟩
    · rw [h1]
      exact ⟨by decide, by decide, by decide, by decide, by decide⟩
  have hdata : (String.mk l).data = l := rfl
  have hstrip : stripChars l = l := stripChars_eq_self l (fun c hc0 => (hid c hc0).2.1)
  have hsne : (String.mk l) ≠ "" := by
    intro h
    exact hne (by simpa using congrArg String.data h)
  have hupper : l.map pyToUpper = l := map_eq_self _ _ (fun c hc0 => (hid c hc0).1)
  have hrepl : l.map (fun ch => if ch = '：' then ':' else if ch = '，' then ',' else ch) = l := by
    refine map_eq_self _ _ ?_
    intro c hc0
    simp [(hid c hc0).2.2.1, (hid c hc0).2.2.2.1]
  have hnocomma : l.contains ',' = false :=
    contains_false_of_ne (fun c hc0 => (hid c hc0).2.2.2.2)
  have hsplitc : splitOnChar ',' l = [l] :=
    splitOnChar_no_sep _ _ (fun c hc0 => (hid c hc0).2.2.2.2)
  have hcolon : l.contains ':' = true := by
    refine contains_true_of_mem ?_
    rw [hl, List.append_assoc]
    exact List.mem_append.mpr (Or.inr (List.mem_append.mpr (Or.inr (List.mem_cons_self _ _))))
  have hseg : splitOnChar ':' l = [c1 ++ d1, c2 ++ d2] := by
    rw [hl]
    rw [show c1 ++ d1 ++ ':' :: (c2 ++ d2) = (c1 ++ d1) ++ ':' :: (c2 ++ d2) from rfl]
    rw [splitOnChar_append_sep ':' (c1 ++ d1) (c2 ++ d2) ?hns]
    case hns =>
      intro c hc0
      rcases List.mem_append.mp hc0 with h1 | h1
      · exact upper_ne_colon c (hc1a c h1)
      · exact digit_ne_colon c (hd1a c h1)
    rw [splitOnChar_no_sep ':' (c2 ++ d2) ?hns2]
    case hns2 =>
      intro c hc0
      rcases List.mem_append.mp hc0 with h1 | h1
      · exact upper_ne_colon c (hc2a c h1)
      · exact digit_ne_colon c (hd2a c h1)
  have hh1 : (c1 ++ d1).headD ' ' = c1.headD ' ' := by
    rcases c1 with _ | ⟨a, t⟩
    · simp at hc1
    · simp
  have hh2 : (c2 ++ d2).headD ' ' = c2.headD ' ' := by
    rcases c2 with _ | ⟨a, t⟩
    · simp at hc2
    · simp
  simp only [validate_coord_format, hdata, hstrip, hupper, hrepl, hnocomma, hsplitc,
    checkParts, hmatch, hcolon, hseg, hsne, hne]
  simp only [List.headD_cons, List.drop_succ_cons, List.drop_zero, hh1, hh2]
  by_cases heq : c1.headD ' ' = c2.headD ' '
  · simp [heq]
  · simp [heq]

/-- C5 witness: the amended theorem applied at `"A2:B5"` (first
letters differ, rejected). -/
theorem c5_witness :
    validate_coord_format "A2:B5" true = (false, "Single col tool cannot span columns.") := by
  have h := c5_single_col_first_letter_only ['A'] ['2'] ['B'] ['5'] (by decide)
    (by intro c hc; fin_cases hc; decide) (by decide)
    (by intro c hc; fin_cases hc; decide) (by decide)
    (by intro c hc; fin_cases hc; decide) (by decide)
    (by intro c hc; fin_cases hc; decide)
  simpa using h

/-- C10: with an empty update batch, a file that is not a zip archive,
or an archive lacking the target sheet part,
`apply_sheet_updates_preserve_images` returns with the file at the
given path untouched. -/
theorem c10_no_op_guards (f : XFile) (n : Int) (updates : List SheetUpdate)
    (h : updates = [] ∨ isZipfileX f = false ∨
      (∀ a : Archive, f = XFile.zip a → getPart a (sheetPath n) = none)) :
    apply_sheet_updates_preserve_images f n updates = .ok f := by
  unfold apply_sheet_updates_preserve_images
  rcases h with h | h | h
  · rw [if_pos h]
  · cases f with
    | notZip d => simp
    | zip a => simp [isZipfileX] at h
  · by_cases hu : updates = []
    · rw [if_pos hu]
    · rw [if_neg hu]
      cases f with
      | notZip d => rfl
      | zip a =>
        simp only []
        rw [h a rfl]

/-- C10 witness: the theorem applied to a non-empty batch aimed at a
sheet number whose part is absent from a concrete archive. -/
theorem c10_witness :
    apply_sheet_updates_preserve_images (XFile.zip (drawingArchive "2")) 5 [(0, 0, "x")] =
      .ok (XFile.zip (drawingArchive "2")) :=
  c10_no_op_guards _ 5 _ (Or.inr (Or.inr (fun a ha => by cases ha; rfl)))

/-- C7 counterexample: loading a package with one sheet and selector 2
propagates an error (the `except` clause of `load_file_with_copy`
deletes the temporary files and re-raises); the loader does not fall
back to the first sheet. -/
theorem c7_counterexample_loader_error :
    loadSelectedSheet ".xlsx" (0 : Nat) [0] 2 = .error "Worksheet index is invalid" := rfl

/-- C7 amended: for a 1-based selector exceeding the sheet count, the
tabular loader (`load_file_with_copy`) propagates the underlying
error, while the graceful first-sheet fallback exists in
`extract_image_map`, whose worksheet selection returns the active
sheet whenever the selector exceeds the worksheet count. -/
theorem c7_loader_raises_extract_falls_back {α : Type} (sheets : List α) (c : α) (n : Int)
    (wb : Workbook) (h1 : (sheets.length : Int) < n) (h2 : (wb.sheets.length : Int) < n) :
    (∃ e, loadSelectedSheet ".xlsx" c sheets n = .error e) ∧
      selectWorksheet wb n = some wb.active := by
  constructor
  · refine ⟨"Worksheet index is invalid", ?_⟩
    unfold loadSelectedSheet readExcelSheet
    rw [if_neg (by decide)]
    have hg : pyGet sheets (n - 1) = none := by
      unfold pyGet
      rw [if_pos (by omega)]
      refine List.get?_eq_none.mpr ?_
      omega
    rw [hg]
  · unfold selectWorksheet
    rw [if_neg (by omega)]

/-- C7 witness: the amended theorem applied at a single-sheet workbook
and selector 2. -/
theorem c7_witness :
    (∃ e, loadSelectedSheet ".xlsx" (0 : Nat) [0] 2 = .error e) ∧
      selectWorksheet wb0 2 = some wb0.active :=
  c7_loader_raises_extract_falls_back [0] 0 2 wb0 (by decide) (by decide)

/-- C1: the coordinate conversion is NOT applied identically in the
three passes.  On a concrete package whose cell-image part anchors an
image at cell `A1` — file row 1, the header — the cell-image pass
keeps the image at key `(0, 0)` instead of discarding it, while both
the drawing-XML pass and the legacy pass discard an image anchored at
anchor row 0 (file row 1); and `_cell_ref_to_pd_indices` maps file
row 3 (0-based anchor row 2) to data-row index 2, not the 1 the
`r - 1` convention of the other passes yields. -/
theorem c1_cell_image_pass_breaks_row_convention :
    extract_cell_images_map (XFile.zip (cellImagesArchive "A1")) 1 = [((0, 0), [imgUri, imgUri])] ∧
    extract_drawing_images_map (XFile.zip (drawingArchive "0")) 1 = [] ∧
    legacyPairs [⟨some (0, 0), some imgBytes, none⟩] = [] ∧
    cellRefToPdIndices "A3" = some (2, 0) := by
  exact ⟨rfl, rfl, rfl, rfl⟩

/-- C3: on a concrete package holding exactly one image anchored at
file row 3, column 0 through the cell-image mechanism,
`extract_image_map` returns the image at key `(2, 0)` — not the
`(1, 0)` the claim requires — and duplicates the entry (the inner
loop of the cell-image pass appends once per element of the path from
the locating ancestor down to the blip); the key `(1, 0)` is absent. -/
theorem c3_cell_image_mechanism_wrong_key :
    extract_image_map "t.xlsx" (some (XFile.zip (cellImagesArchive "A3"))) (some wb0) 1 =
        [((2, 0), [imgUri, imgUri])] ∧
      mapLookup (extract_image_map "t.xlsx" (some (XFile.zip (cellImagesArchive "A3")))
        (some wb0) 1) (1, 0) = none := by
  exact ⟨rfl, rfl⟩

/-- Well-formedness of an encoded image entry: a data URI with one of
the accepted raster format tags. -/
def isImageDataUri (s : String) : Prop :=
  ∃ fmt payload, fmt ∈ allowedFmts ∧ s = "data:image/" ++ fmt ++ ";base64," ++ payload

/-- Membership of a format tag in the accepted list from a positive
`contains` test. -/
theorem mem_allowed_of_contains (ext : String) (h : allowedFmts.contains ext = true) :
    ext ∈ allowedFmts := by
  simp [allowedFmts, List.contains_eq_any_beq] at h
  rcases h with h | h | h | h | h | h <;> simp [allowedFmts, h]

/-- Vector rejection and coercion branch shared by the encoders. -/
theorem mkUri_branch_wf (ext : String) (data : List Nat) (s : String)
    (h : (if vectorFmts.contains ext = true then none
          else some (mkDataUri (if allowedFmts.contains ext = true then ext else "png")
            (b64encode data))) = some s) :
    isImageDataUri s := by
  split at h
  · exact absurd h (by simp)
  · rw [Option.some_inj] at h
    subst h
    by_cases hc : allowedFmts.contains ext = true
    · exact ⟨ext, _, mem_allowed_of_contains _ hc, by rw [if_pos hc]; rfl⟩
    · exact ⟨"png", _, by simp [allowedFmts], by rw [if_neg hc]; rfl⟩

/-- Every URI produced by `_read_image_as_data_uri` is a well-formed
image data URI. -/
theorem readImageAsDataUri_wf (a : Archive) (p : String) (s : String)
    (h : readImageAsDataUri a p = some s) : isImageDataUri s := by
  simp only [readImageAsDataUri] at h
  split at h
  · exact absurd h (by simp)
  · split at h
    · exact absurd h (by simp)
    · split at h
      · exact mkUri_branch_wf _ _ _ h
      · exact mkUri_branch_wf _ _ _ h

/-- Every URI emitted by the drawing-XML pass is a well-formed image
data URI. -/
theorem drawingAnchorPairs_wf (a : Archive) (drels : RelDict) (drp : String) (droot : Xml)
    (k : Int × Int) (s : String) (h : (k, s) ∈ drawingAnchorPairs a drels drp droot) :
    isImageDataUri s := by
  simp only [drawingAnchorPairs, List.mem_filterMap] at h
  obtain ⟨anchor, -, hf⟩ := h
  iterate 12 (all_goals try split at hf)
  all_goals try exact Option.noConfusion hf
  all_goals rw [Option.some_inj] at hf
  all_goals injection hf with h1 h2
  all_goals subst h2
  all_goals exact readImageAsDataUri_wf _ _ _ (by assumption)

/-- Coercion branch of the encoders: an unrecognized format tag is
replaced by `png`, an accepted one kept. -/
theorem mkUri_coerce_wf (ext : String) (data : List Nat) :
    isImageDataUri (mkDataUri (if allowedFmts.contains ext = true then ext else "png")
      (b64encode data)) := by
  by_cases hc : allowedFmts.contains ext = true
  · exact ⟨ext, _, mem_allowed_of_contains _ hc, by rw [if_pos hc]; rfl⟩
  · exact ⟨"png", _, by simp [allowedFmts], by rw [if_neg hc]; rfl⟩

set_option maxHeartbeats 1000000 in
/-- Every URI emitted by the legacy object-model pass is a
well-formed image data URI. -/
theorem legacyPairs_wf (images : List LegacyImage) (k : Int × Int) (s : String)
    (h : (k, s) ∈ legacyPairs images) : isImageDataUri s := by
  simp only [legacyPairs, List.mem_filterMap] at h
  obtain ⟨img, -, hf⟩ := h
  iterate 10 (all_goals try split at hf)
  all_goals try exact Option.noConfusion hf
  all_goals rw [Option.some_inj] at hf
  all_goals injection hf with h1 h2
  all_goals subst h2
  all_goals try exact ⟨"png", _, by simp [allowedFmts], rfl⟩
  all_goals (rename_i hcont tx f heqf hfne
             simp only [heqf] at hcont
             rw [if_pos hfne] at hcont
             exact ⟨_, _, mem_allowed_of_contains _ hcont, rfl⟩)

set_option maxHeartbeats 1000000 in
/-- Every URI emitted by step 1 of the cell-image pass is a
well-formed image data URI. -/
theorem cellPass1Pairs_wf (a : Archive) (srp : String) (srels : RelDict) (sroot : Xml)
    (k : Int × Int) (s : String) (h : (k, s) ∈ cellPass1Pairs a srp srels sroot) :
    isImageDataUri s := by
  simp only [cellPass1Pairs, List.mem_filterMap] at h
  obtain ⟨p, -, hf⟩ := h
  iterate 10 (all_goals try split at hf)
  all_goals try exact Option.noConfusion hf
  all_goals rw [Option.some_inj] at hf
  all_goals injection hf with h1 h2
  all_goals subst h2
  all_goals exact readImageAsDataUri_wf _ _ _ (by assumption)

set_option maxHeartbeats 1000000 in
/-- Every URI emitted by step 2 of the cell-image pass is a
well-formed image data URI. -/
theorem cellPass2Pairs_wf (a : Archive) (srp : String) (srels : RelDict)
    (k : Int × Int) (s : String) (h : (k, s) ∈ cellPass2Pairs a srp srels) :
    isImageDataUri s := by
  simp only [cellPass2Pairs, List.mem_flatMap] at h
  obtain ⟨rt, -, hmem⟩ := h
  iterate 5 (all_goals try split at hmem)
  all_goals try exact absurd hmem (List.not_mem_nil _)
  all_goals simp only [List.mem_filterMap] at hmem
  all_goals obtain ⟨q, -, hf⟩ := hmem
  iterate 10 (all_goals try split at hf)
  all_goals try exact Option.noConfusion hf
  all_goals rw [Option.some_inj] at hf
  all_goals injection hf with h1 h2
  all_goals subst h2
  all_goals exact readImageAsDataUri_wf _ _ _ (by assumption)

/-- Value membership in an image map. -/
def memVal (m : ImageMap) (s : String) : Prop :=
  ∃ kl ∈ m, s ∈ kl.2

/-- Values of a map after `mapAppend` come from the map or are the
appended value. -/
theorem memVal_mapAppend (m : ImageMap) (k : Int × Int) (v s : String)
    (h : memVal (mapAppend m k v) s) : memVal m s ∨ s = v := by
  induction m with
  | nil =>
    obtain ⟨kl, hkl, hs⟩ := h
    simp [mapAppend] at hkl
    subst hkl
    simp at hs
    exact Or.inr hs
  | cons e rest ih =>
    obtain ⟨k0, l0⟩ := e
    unfold mapAppend at h
    split at h
    · obtain ⟨kl, hkl, hs⟩ := h
      rcases List.mem_cons.mp hkl with h1 | h1
      · subst h1
        simp only [] at hs
        rcases List.mem_append.mp hs with h2 | h2
        · exact Or.inl ⟨(k0, l0), List.mem_cons_self _ _, h2⟩
        · simp at h2
          exact Or.inr h2
      · exact Or.inl ⟨kl, List.mem_cons_of_mem _ h1, hs⟩
    · obtain ⟨kl, hkl, hs⟩ := h
      rcases List.mem_cons.mp hkl with h1 | h1
      · subst h1
        exact Or.inl ⟨(k0, l0), List.mem_cons_self _ _, hs⟩
      · rcases ih ⟨kl, h1, hs⟩ with h2 | h2
        · obtain ⟨kl2, hkl2, hs2⟩ := h2
          exact Or.inl ⟨kl2, List.mem_cons_of_mem _ hkl2, hs2⟩
        · exact Or.inr h2

/-- Values of a fold of `mapAppend` come from the seed or the folded
pairs. -/
theorem memVal_buildFold (pairs : List ((Int × Int) × String)) (m : ImageMap) (s : String)
    (h : memVal (pairs.foldl (fun acc kv => mapAppend acc kv.1 kv.2) m) s) :
    memVal m s ∨ ∃ k, (k, s) ∈ pairs := by
  induction pairs generalizing m with
  | nil => exact Or.inl h
  | cons kv rest ih =>
    rcases ih (mapAppend m kv.1 kv.2) h with h1 | h1
    · rcases memVal_mapAppend m kv.1 kv.2 s h1 with h2 | h2
      · exact Or.inl h2
      · subst h2
        exact Or.inr ⟨kv.1, by simp⟩
    · obtain ⟨k, hk⟩ := h1
      exact Or.inr ⟨k, List.mem_cons_of_mem _ hk⟩

/-- Values of a built map come from the generating pairs. -/
theorem memVal_buildMap (pairs : List ((Int × Int) × String)) (s : String)
    (h : memVal (buildMap pairs) s) : ∃ k, (k, s) ∈ pairs := by
  rcases memVal_buildFold pairs [] s h with h1 | h1
  · obtain ⟨kl, hkl, -⟩ := h1
    exact absurd hkl (List.not_mem_nil _)
  · exact h1

/-- Values of a map after `mapExtend` come from the map or the
extension list. -/
theorem memVal_mapExtend (m : ImageMap) (k : Int × Int) (vs : List String) (s : String)
    (h : memVal (mapExtend m k vs) s) : memVal m s ∨ s ∈ vs := by
  induction m with
  | nil =>
    obtain ⟨kl, hkl, hs⟩ := h
    simp [mapExtend] at hkl
    subst hkl
    exact Or.inr hs
  | cons e rest ih =>
    obtain ⟨k0, l0⟩ := e
    unfold mapExtend at h
    split at h
    · obtain ⟨kl, hkl, hs⟩ := h
      rcases List.mem_cons.mp hkl with h1 | h1
      · subst h1
        simp only [] at hs
        rcases List.mem_append.mp hs with h2 | h2
        · exact Or.inl ⟨(k0, l0), List.mem_cons_self _ _, h2⟩
        · exact Or.inr h2
      · exact Or.inl ⟨kl, List.mem_cons_of_mem _ h1, hs⟩
    · obtain ⟨kl, hkl, hs⟩ := h
      rcases List.mem_cons.mp hkl with h1 | h1
      · subst h1
        exact Or.inl ⟨(k0, l0), List.mem_cons_self _ _, hs⟩
      · rcases ih ⟨kl, h1, hs⟩ with h2 | h2
        · obtain ⟨kl2, hkl2, hs2⟩ := h2
          exact Or.inl ⟨kl2, List.mem_cons_of_mem _ hkl2, hs2⟩
        · exact Or.inr h2

/-- Values of a fold of `mapExtend` come from the seed map or the
merged entries. -/
theorem memVal_extendFold (entries : ImageMap) (m : ImageMap) (s : String)
    (h : memVal (entries.foldl (fun acc kv => mapExtend acc kv.1 kv.2) m) s) :
    memVal m s ∨ memVal entries s := by
  induction entries generalizing m with
  | nil => exact Or.inl h
  | cons kv rest ih =>
    rcases ih (mapExtend m kv.1 kv.2) h with h1 | h1
    · rcases memVal_mapExtend m kv.1 kv.2 s h1 with h2 | h2
      · exact Or.inl h2
      · exact Or.inr ⟨kv, List.mem_cons_self _ _, h2⟩
    · obtain ⟨kl, hkl, hs⟩ := h1
      exact Or.inr ⟨kl, List.mem_cons_of_mem _ hkl, hs⟩

/-- Every value of the drawing-pass map is a well-formed image data
URI. -/
theorem extract_drawing_map_wf (f : XFile) (n : Int) (s : String)
    (h : memVal (extract_drawing_images_map f n) s) : isImageDataUri s := by
  simp only [extract_drawing_images_map] at h
  iterate 6 (all_goals try split at h)
  all_goals try exact absurd h.choose_spec.1 (List.not_mem_nil _)
  all_goals obtain ⟨k, hk⟩ := memVal_buildMap _ _ h
  all_goals simp only [List.mem_flatMap] at hk
  all_goals obtain ⟨rid, -, hmem⟩ := hk
  iterate 8 (all_goals try split at hmem)
  all_goals try exact absurd hmem (List.not_mem_nil _)
  all_goals exact drawingAnchorPairs_wf _ _ _ _ _ _ hmem

/-- Every value of the cell-pass map is a well-formed image data
URI. -/
theorem extract_cell_map_wf (f : XFile) (n : Int) (s : String)
    (h : memVal (extract_cell_images_map f n) s) : isImageDataUri s := by
  simp only [extract_cell_images_map] at h
  iterate 4 (all_goals try split at h)
  all_goals try exact absurd h.choose_spec.1 (List.not_mem_nil _)
  all_goals obtain ⟨k, hk⟩ := memVal_buildMap _ _ h
  all_goals rcases List.mem_append.mp hk with hk1 | hk1
  all_goals first
    | exact cellPass1Pairs_wf _ _ _ _ _ _ hk1
    | exact cellPass2Pairs_wf _ _ _ _ _ hk1

/-- A successful lookup exhibits value membership. -/
theorem mapLookup_memVal (m : ImageMap) (k : Int × Int) (lst : List String) (s : String)
    (h1 : mapLookup m k = some lst) (h2 : s ∈ lst) : memVal m s := by
  unfold mapLookup at h1
  cases hf : m.find? (fun x => x.1 = k) with
  | none => rw [hf] at h1; exact absurd h1 (by simp)
  | some e =>
    rw [hf] at h1
    have h3 : e.2 = lst := by simpa using h1
    exact ⟨e, List.mem_of_find?_eq_some hf, h3 ▸ h2⟩

set_option maxHeartbeats 1000000 in
/-- Every value of the full extracted image map is a well-formed image
data URI. -/
theorem imageMap_entries_wf
    (path : String) (file : Option XFile) (wb : Option Workbook) (n : Int)
    (k : Int × Int) (lst : List String) (s : String)
    (h1 : mapLookup (extract_image_map path file wb n) k = some lst)
    (h2 : s ∈ lst) :
    isImageDataUri s := by
  have hmem : memVal (extract_image_map path file wb n) s :=
    mapLookup_memVal _ _ _ _ h1 h2
  simp only [extract_image_map] at hmem
  iterate 3 (all_goals try split at hmem)
  all_goals try exact absurd hmem.choose_spec.1 (List.not_mem_nil _)
  all_goals rcases memVal_extendFold _ _ _ hmem with hm | hm
  all_goals try exact extract_cell_map_wf _ _ _ hm
  all_goals rcases memVal_extendFold _ _ _ hm with hm2 | hm2
  all_goals try exact extract_drawing_map_wf _ _ _ hm2
  all_goals obtain ⟨k2, hk⟩ := memVal_buildMap _ _ hm2
  iterate 4 (all_goals try split at hk)
  all_goals try exact absurd hk (List.not_mem_nil _)
  all_goals exact legacyPairs_wf _ _ _ hk

/-- C9: every encoded image stored in the map returned by
`extract_image_map` is a self-contained data URI
`data:image/<fmt>;base64,<payload>` with `<fmt>` one of png, jpg,
jpeg, bmp, gif, webp (vector and metafile formats never appear), and
`_read_image_as_data_uri` does not reject an unrecognized non-vector
format: it coerces the tag to `png` and still returns an encoding. -/
theorem c9_encoded_images_are_data_uris :
    (∀ (path : String) (file : Option XFile) (wb : Option Workbook) (n : Int)
      (k : Int × Int) (lst : List String) (s : String),
      mapLookup (extract_image_map path file wb n) k = some lst → s ∈ lst →
      isImageDataUri s) ∧
    (∀ (a : Archive) (p : String) (part : ZPart), getPart a p = some part → p ≠ "" →
      vectorFmts.contains (if extOfPath p = "" then "png" else extOfPath p) = false →
      (readImageAsDataUri a p).isSome = true) := by
  constructor
  · intro path file wb n k lst s h1 h2
    exact imageMap_entries_wf path file wb n k lst s h1 h2
  · intro a p part hg hp hv
    simp only [readImageAsDataUri]
    rw [if_neg hp, hg]
    simp only [hv]
    simp

/-- C9 witness: the claim theorem applied to the concrete drawing
package (whose extracted entry at key `(1, 0)` is `imgUri`) and to a
concrete `.tiff` part that is coerced rather than rejected. -/
theorem c9_witness :
    isImageDataUri imgUri ∧
      (readImageAsDataUri [("a/b.tiff", ZPart.bin imgBytes)] "a/b.tiff").isSome = true := by
  constructor
  · exact c9_encoded_images_are_data_uris.1 "t.xlsx" (some (XFile.zip (drawingArchive "2")))
      (some wb0) 1 (1, 0) [imgUri] imgUri rfl (by simp)
  · exact c9_encoded_images_are_data_uris.2 [("a/b.tiff", ZPart.bin imgBytes)] "a/b.tiff"
      (ZPart.bin imgBytes) rfl (by decide) (by rfl)

/-- Archive rebuilt by `apply_sheet_updates_preserve_images`: every
entry other than the sheet part copied by name, then the new sheet
document. -/
def patchedArchive (a : Archive) (sp : String) (newRoot : Xml) : Archive :=
  (a.filterMap (fun e =>
    if e.1 = sp then none else some (e.1, (getPart a e.1).getD e.2))) ++ [(sp, ZPart.xml newRoot)]

/-- Suffix tests transfer along left extension. -/
theorem listEndsWith_append (x y suf : List Char) (h : listEndsWith y suf = true) :
    listEndsWith (x ++ y) suf = true := by
  unfold listEndsWith at *
  rw [List.reverse_append]
  rw [List.isPrefixOf_iff_prefix] at *
  exact h.trans (List.prefix_append _ _)

/-- A string cannot end both in `.rels` and in `.xml`. -/
theorem not_endsWith_rels_and_xml (q : String) (h1 : strEndsWith q ".rels" = true)
    (h2 : strEndsWith q ".xml" = true) : False := by
  unfold strEndsWith listEndsWith at h1 h2
  rw [List.isPrefixOf_iff_prefix] at h1 h2
  obtain ⟨t1, ht1⟩ := h1
  obtain ⟨t2, ht2⟩ := h2
  rw [show (".rels".data.reverse) = ['s', 'l', 'e', 'r', '.'] from rfl] at ht1
  rw [show (".xml".data.reverse) = ['l', 'm', 'x', '.'] from rfl] at ht2
  rw [← ht1] at ht2
  simp at ht2

/-- The sheet part name ends in `.xml`. -/
theorem sheetPath_endsWith_xml (n : Int) : strEndsWith (sheetPath n) ".xml" = true := by
  unfold sheetPath strEndsWith
  rw [show ("xl/worksheets/sheet" ++ toString n ++ ".xml").data
    = ("xl/worksheets/sheet" ++ toString n).data ++ ".xml".data from by simp]
  exact listEndsWith_append _ _ _ (by decide)

/-- The sheet rels name ends in `.rels`. -/
theorem sheetRelsPath_endsWith_rels (n : Int) : strEndsWith (sheetRelsPath n) ".rels" = true := by
  unfold sheetRelsPath strEndsWith
  rw [show ("xl/worksheets/_rels/sheet" ++ toString n ++ ".xml.rels").data
    = ("xl/worksheets/_rels/sheet" ++ toString n).data ++ ".xml.rels".data from by simp]
  exact listEndsWith_append _ _ _ (by decide)

/-- The sheet rels name differs from the sheet part name. -/
theorem sheetRelsPath_ne_sheetPath (n : Int) : sheetRelsPath n ≠ sheetPath n := by
  intro h
  exact not_endsWith_rels_and_xml (sheetPath n) (h ▸ sheetRelsPath_endsWith_rels n)
    (sheetPath_endsWith_xml n)

/-- Joins end in any suffix of their second component. -/
theorem pyJoin_endsWith (a b suf : String) (h : strEndsWith b suf = true) :
    strEndsWith (pyJoin a b) suf = true := by
  unfold pyJoin
  split
  · exact h
  · split
    · exact h
    · split
      · unfold strEndsWith at *
        rw [show (a ++ b).data = a.data ++ b.data from by simp]
        exact listEndsWith_append _ _ _ h
      · unfold strEndsWith at *
        rw [show (a ++ "/" ++ b).data = (a ++ "/").data ++ b.data from by simp]
        exact listEndsWith_append _ _ _ h

/-- Rels names built by `_rels_for_part` end in `.rels`. -/
theorem relsForPart_endsWith_rels (p : String) : strEndsWith (relsForPart p) ".rels" = true := by
  unfold relsForPart
  refine pyJoin_endsWith _ _ _ ?_
  unfold strEndsWith
  rw [show (pyBasename p ++ ".rels").data = (pyBasename p).data ++ ".rels".data from by simp]
  exact listEndsWith_append _ _ _ (by decide)

/-- Rels names built by `_rels_for_part` differ from the sheet part
name. -/
theorem relsForPart_ne_sheetPath (p : String) (n : Int) : relsForPart p ≠ sheetPath n := by
  intro h
  exact not_endsWith_rels_and_xml (sheetPath n) (h ▸ relsForPart_endsWith_rels p)
    (sheetPath_endsWith_xml n)

/-- Lookup over a one-entry extension. -/
theorem getPart_snoc (l : Archive) (e : String × ZPart) (q : String) :
    getPart (l ++ [e]) q = if e.1 = q then some e.2 else getPart l q := by
  unfold getPart
  rw [List.foldl_append]
  rfl

/-- A successful lookup names an actual archive entry. -/
theorem getPart_mem (a : Archive) (p : String) (v : ZPart) (h : getPart a p = some v) :
    (p, v) ∈ a := by
  induction a using List.reverseRecOn with
  | nil => exact absurd h (by simp [getPart])
  | append_singleton as e ih =>
    rw [getPart_snoc] at h
    split at h
    · rw [Option.some_inj] at h
      subst h
      rename_i he
      subst he
      exact List.mem_append.mpr (Or.inr (by simp))
    · exact List.mem_append.mpr (Or.inl (ih h))

/-- Name membership from a successful lookup and conversely. -/
theorem getPart_isSome_iff (a : Archive) (q : String) :
    (getPart a q).isSome = true ↔ q ∈ a.map Prod.fst := by
  induction a using List.reverseRecOn with
  | nil => simp [getPart]
  | append_singleton as e ih =>
    rw [getPart_snoc]
    by_cases he : e.1 = q
    · simp [he]
    · rw [if_neg he]
      simp only [List.map_append, List.map_cons, List.map_nil, List.mem_append]
      rw [ih]
      simp [Ne.symm he]

/-- Copy-by-name over the surviving entries preserves lookups. -/
theorem getPart_filterMap_copy (a b : Archive) (sp q : String) (hq : q ≠ sp)
    (hsub : ∀ e ∈ b, e ∈ a) :
    getPart (b.filterMap (fun e =>
      if e.1 = sp then none else some (e.1, (getPart a e.1).getD e.2))) q =
      if q ∈ b.map Prod.fst then getPart a q else none := by
  induction b using List.reverseRecOn with
  | nil => simp [getPart]
  | append_singleton bs e ih =>
    rw [List.filterMap_append]
    have hsub' : ∀ x ∈ bs, x ∈ a := fun x hx => hsub x (List.mem_append.mpr (Or.inl hx))
    by_cases hesp : e.1 = sp
    · rw [show List.filterMap (fun e =>
        if e.1 = sp then none else some (e.1, (getPart a e.1).getD e.2)) [e] = [] from by
          simp [List.filterMap, hesp]]
      rw [List.append_nil, ih hsub']
      have hq1 : q ∈ (bs ++ [e]).map Prod.fst ↔ q ∈ bs.map Prod.fst := by
        simp only [List.map_append, List.map_cons, List.map_nil, List.mem_append]
        constructor
        · rintro (h | h)
          · exact h
          · simp at h
            exact absurd (h.trans hesp) hq
        · exact Or.inl
      by_cases hmem : q ∈ bs.map Prod.fst
      · rw [if_pos hmem, if_pos (hq1.mpr hmem)]
      · rw [if_neg hmem, if_neg (fun hc => hmem (hq1.mp hc))]
    · rw [show List.filterMap (fun e =>
        if e.1 = sp then none else some (e.1, (getPart a e.1).getD e.2)) [e]
          = [(e.1, (getPart a e.1).getD e.2)] from by simp [List.filterMap, hesp]]
      rw [getPart_snoc, ih hsub']
      by_cases heq : e.1 = q
      · rw [if_pos heq]
      -- key case: the copied value at name q is getPart a q
        have hin : (e.1, e.2) ∈ a := hsub e (List.mem_append.mpr (Or.inr (by simp)))
        have hsome : (getPart a e.1).isSome = true := by
          rw [getPart_isSome_iff]
          exact List.mem_map.mpr ⟨(e.1, e.2), hin, rfl⟩
        obtain ⟨v, hv⟩ := Option.isSome_iff_exists.mp hsome
        rw [if_pos (by simp [heq])]
        rw [heq] at hv ⊢
        rw [hv]
        simp
      · rw [if_neg heq]
        have hq1 : q ∈ (bs ++ [e]).map Prod.fst ↔ q ∈ bs.map Prod.fst := by
          simp only [List.map_append, List.map_cons, List.map_nil, List.mem_append]
          constructor
          · rintro (h | h)
            · exact h
            · simp at h
              exact absurd h.symm heq
          · exact Or.inl
        by_cases hmem : q ∈ bs.map Prod.fst
        · rw [if_pos hmem, if_pos (hq1.mpr hmem)]
        · rw [if_neg hmem, if_neg (fun hc => hmem (hq1.mp hc))]

/-- Frame of the patched archive: every name other than the sheet part
resolves to the original part. -/
theorem getPart_patched_ne (a : Archive) (sp q : String) (nr : Xml) (hq : q ≠ sp) :
    getPart (patchedArchive a sp nr) q = getPart a q := by
  unfold patchedArchive
  rw [getPart_snoc]
  rw [if_neg (show ¬((sp, ZPart.xml nr).1 = q) from fun hc => hq (by simpa using hc.symm))]
  rw [getPart_filterMap_copy a a sp q hq (fun e he => he)]
  by_cases hmem : q ∈ a.map Prod.fst
  · rw [if_pos hmem]
  · rw [if_neg hmem]
    cases hg : getPart a q with
    | none => rfl
    | some v =>
      exact absurd (getPart_isSome_iff a q |>.mp (by simp [hg])) hmem

/-- The patched archive resolves the sheet part to the new document. -/
theorem getPart_patched_self (a : Archive) (sp : String) (nr : Xml) :
    getPart (patchedArchive a sp nr) sp = some (ZPart.xml nr) := by
  unfold patchedArchive
  rw [getPart_snoc, if_pos rfl]

/-- Decidable package condition of the patch theorem: no relationship
part of the archive carries a target resolving to the sheet part
(real packages never point relationships back at a worksheet part). -/
def relsTargetsAvoid (a : Archive) (sp : String) : Bool :=
  a.all (fun e =>
    !(strEndsWith e.1 ".rels") ||
      (match e.2 with
       | ZPart.xml x =>
         (relationshipPairs x).all (fun kv => decide (resolveTarget e.1 kv.2 ≠ some sp))
       | ZPart.bin _ => true))

/-- Membership after a dictionary insertion. -/
theorem mem_dinsert (d : RelDict) (k v : String) (x : String × String)
    (h : x ∈ dinsert d k v) : x ∈ d ∨ x = (k, v) := by
  induction d with
  | nil =>
    simp [dinsert] at h
    exact Or.inr h
  | cons e rest ih =>
    obtain ⟨k0, v0⟩ := e
    unfold dinsert at h
    split at h
    · rcases List.mem_cons.mp h with h1 | h1
      · rename_i hk
        subst hk
        exact Or.inr h1
      · exact Or.inl (List.mem_cons_of_mem _ h1)
    · rcases List.mem_cons.mp h with h1 | h1
      · exact Or.inl (h1 ▸ List.mem_cons_self _ _)
      · rcases ih h1 with h2 | h2
        · exact Or.inl (List.mem_cons_of_mem _ h2)
        · exact Or.inr h2

/-- Properties of all inputs survive the dictionary-building fold. -/
theorem dinsertFold_all (pairs : List (String × String)) (d : RelDict)
    (P : String × String → Prop) (hd : ∀ kv ∈ d, P kv) (hp : ∀ kv ∈ pairs, P kv) :
    ∀ kv ∈ pairs.foldl (fun d kv => dinsert d kv.1 kv.2) d, P kv := by
  induction pairs generalizing d with
  | nil => exact hd
  | cons e rest ih =>
    refine ih (dinsert d e.1 e.2) ?_ (fun kv hkv => hp kv (List.mem_cons_of_mem _ hkv))
    intro kv hkv
    rcases mem_dinsert _ _ _ _ hkv with h1 | h1
    · exact hd kv h1
    · exact h1 ▸ hp e (List.mem_cons_self _ _)

/-- Under the package condition, every relationship read from a rels
part resolves away from the sheet part. -/
theorem readRelationships_avoid (a : Archive) (sp p : String)
    (h4 : relsTargetsAvoid a sp = true) (hp : strEndsWith p ".rels" = true) :
    ∀ kv ∈ readRelationships a p, resolveTarget p kv.2 ≠ some sp := by
  intro kv hkv
  unfold readRelationships at hkv
  split at hkv
  · exact absurd hkv (List.not_mem_nil _)
  · split at hkv
    · exact absurd hkv (List.not_mem_nil _)
    · rename_i part hget
      split at hkv
      · exact absurd hkv (List.not_mem_nil _)
      · rename_i x hparse
        have hmem : (p, part) ∈ a := getPart_mem a p part hget
        have hall := (List.all_eq_true.mp h4) (p, part) hmem
        simp only [hp, Bool.not_true, Bool.false_or] at hall
        cases part with
        | bin d => exact absurd hparse (by simp [parsePart])
        | xml x2 =>
          have hx : x2 = x := by
            have : parsePart (ZPart.xml x2) = some x2 := rfl
            rw [this] at hparse
            exact Option.some_inj.mp hparse
          subst hx
          have hpairs := List.all_eq_true.mp hall
          refine dinsertFold_all (relationshipPairs x2) []
            (fun kv => resolveTarget p kv.2 ≠ some sp) (by simp) ?_ kv hkv
          intro kv2 hkv2
          exact of_decide_eq_true (hpairs kv2 hkv2)

/-- A successful dictionary lookup names an entry. -/
theorem dget_mem (d : RelDict) (k v : String) (h : dget d k = some v) : (k, v) ∈ d := by
  unfold dget at h
  cases hf : d.find? (fun kv => kv.1 = k) with
  | none => rw [hf] at h; exact absurd h (by simp)
  | some e =>
    rw [hf] at h
    have h2 : e.2 = v := by simpa using h
    have h3 := List.find?_some hf
    have h4 : e.1 = k := by simpa using h3
    have := List.mem_of_find?_eq_some hf
    rw [← h2, ← h4]
    exact this

/-- `_read_image_as_data_uri` depends on the archive only through the
part at the image path. -/
theorem readImageAsDataUri_congr (a' a : Archive) (p : String)
    (hf : getPart a' p = getPart a p) :
    readImageAsDataUri a' p = readImageAsDataUri a p := by
  unfold readImageAsDataUri
  rw [hf]

/-- `_read_relationships` depends on the archive only through the part
at the rels path. -/
theorem readRelationships_congr (a' a : Archive) (p : String)
    (hf : getPart a' p = getPart a p) :
    readRelationships a' p = readRelationships a p := by
  unfold readRelationships
  rw [hf]

/-- Round trip of the child-list conversions. -/
theorem XmlList.toList_ofList (l : List Xml) : (XmlList.ofList l).toList = l := by
  induction l with
  | nil => rfl
  | cons c cs ih => simp [XmlList.ofList, XmlList.toList, ih]

/-- Round trip of the child-list conversions, other direction. -/
theorem XmlList.ofList_toList : (cs : XmlList) → XmlList.ofList cs.toList = cs
  | .nil => rfl
  | .cons c cs => by simp [XmlList.ofList, XmlList.toList, XmlList.ofList_toList cs]

/-- The child-list traversal is a flat map over the converted list. -/
theorem XmlList.iterA_eq_flatMap (anc : AncCtx) :
    (cs : XmlList) → XmlList.iterA anc cs = cs.toList.flatMap (Xml.iterA anc)
  | .nil => rfl
  | .cons c cs => by
    simp [XmlList.iterA, XmlList.toList, XmlList.iterA_eq_flatMap anc cs]

mutual
/-- The elements visited by the traversal do not depend on the
ancestor context. -/
theorem xmlIterA_map_fst (anc anc' : AncCtx) (x : Xml) :
    (Xml.iterA anc x).map Prod.fst = (Xml.iterA anc' x).map Prod.fst := by
  cases x with
  | mk t a tx cs =>
    simp only [Xml.iterA, List.map_cons]
    rw [xmlListIterA_map_fst (a :: anc) (a :: anc') cs]
/-- Child-list version of the context independence. -/
theorem xmlListIterA_map_fst (anc anc' : AncCtx) (cs : XmlList) :
    (XmlList.iterA anc cs).map Prod.fst = (XmlList.iterA anc' cs).map Prod.fst := by
  cases cs with
  | nil => rfl
  | cons c cs =>
    simp only [XmlList.iterA, List.map_append]
    rw [xmlIterA_map_fst anc anc' c, xmlListIterA_map_fst anc anc' cs]
end

/-- Visited elements belong to the plain preorder traversal. -/
theorem mem_iter_of_mem_iterA (anc : AncCtx) (x : Xml) (p : Xml × AncCtx)
    (h : p ∈ Xml.iterA anc x) : p.1 ∈ x.iter := by
  unfold Xml.iter
  rw [xmlIterA_map_fst [] anc x]
  exact List.mem_map_of_mem Prod.fst h

/-- Unfolding of the preorder traversal at a constructor. -/
theorem Xml.iter_mk (t : String) (a : List (String × String)) (tx : Option String)
    (cs : XmlList) :
    (Xml.mk t a tx cs).iter = Xml.mk t a tx cs :: cs.toList.flatMap Xml.iter := by
  unfold Xml.iter
  simp only [Xml.iterA, List.map_cons]
  rw [XmlList.iterA_eq_flatMap]
  congr 1
  rw [List.map_flatMap]
  refine List.flatMap_congr ?_
  intro x _
  exact xmlIterA_map_fst [a] [] x

/-- Element-level cleanliness: not a `drawing` element and no
attribute key ending in `id`, so the element can contribute to neither
`drawingRidsOf` nor step 1 of the cell-image pass. -/
def cleanElem (e : Xml) : Bool :=
  decide (localname e.tag ≠ "drawing") && e.attrs.all (fun kv => !(strEndsWith kv.1 "id"))

/-- Subtree-level cleanliness. -/
def cleanAll (x : Xml) : Bool :=
  x.iter.all cleanElem

/-- Sheet-document condition of the patch theorem: the root itself and
the whole subtree of the first `ns:sheetData` child are clean (true of
every real worksheet part: `drawing` elements and relationship ids
live outside `sheetData`). -/
def cleanSheetRoot (root : Xml) : Bool :=
  cleanElem root &&
    (match root.children.toList.findIdx? (fun c => c.tag = nsTag "sheetData") with
     | some i => cleanAll (root.children.toList.getD i dummyXml)
     | none => true)

/-- Cleanliness unfolds along the constructor. -/
theorem cleanAll_mk (t : String) (a : List (String × String)) (tx : Option String)
    (cs : XmlList) :
    cleanAll (Xml.mk t a tx cs) = true ↔
      (cleanElem (Xml.mk t a tx cs) = true ∧ ∀ c ∈ cs.toList, cleanAll c = true) := by
  unfold cleanAll
  rw [Xml.iter_mk]
  simp only [List.all_cons, Bool.and_eq_true, List.all_eq_true]
  constructor
  · rintro ⟨h1, h2⟩
    refine ⟨h1, ?_⟩
    intro c hc e he
    exact h2 e (List.mem_flatMap.mpr ⟨c, hc, he⟩)
  · rintro ⟨h1, h2⟩
    refine ⟨h1, ?_⟩
    intro e he
    obtain ⟨c, hc, he2⟩ := List.mem_flatMap.mp he
    exact h2 c hc e he2

/-- Cleanliness is hereditary. -/
theorem cleanAll_of_mem (x : Xml) (c : Xml) (hx : cleanAll x = true)
    (hc : c ∈ x.children.toList) : cleanAll c = true := by
  cases x with
  | mk t a tx cs => exact (cleanAll_mk t a tx cs |>.mp hx).2 c hc

/-- Clean subtrees contribute nothing to a traversal filter whose
function vanishes on clean elements. -/
theorem filterMap_iterA_nil {α : Type} (f : Xml × AncCtx → Option α) (anc : AncCtx) (x : Xml)
    (hx : cleanAll x = true)
    (hf : ∀ e anc', cleanElem e = true → f (e, anc') = none) :
    (Xml.iterA anc x).filterMap f = [] := by
  rw [List.filterMap_eq_nil_iff]
  intro p hp
  have h1 : p.1 ∈ x.iter := mem_iter_of_mem_iterA anc x p hp
  have h2 : cleanElem p.1 = true := List.all_eq_true.mp hx p.1 h1
  obtain ⟨e, anc'⟩ := p
  exact hf e anc' h2

/-- Decomposition of a list at a resolved index. -/
theorem decomp_of_getQ {α : Type} (cs : List α) (i : Nat) (sd : α)
    (h : cs.get? i = some sd) : cs = cs.take i ++ sd :: cs.drop (i + 1) := by
  induction cs generalizing i with
  | nil => simp at h
  | cons x t ih =>
    cases i with
    | zero =>
      simp at h
      subst h
      simp
    | succ j =>
      simp only [List.take_succ_cons, List.drop_succ_cons, List.cons_append, List.cons.injEq,
        true_and]
      exact ih j (by simpa using h)

/-- Update of a list at a resolved index. -/
theorem set_of_getQ {α : Type} (cs : List α) (i : Nat) (sd sd' : α)
    (h : cs.get? i = some sd) : cs.set i sd' = cs.take i ++ sd' :: cs.drop (i + 1) := by
  induction cs generalizing i with
  | nil => simp at h
  | cons x t ih =>
    cases i with
    | zero => simp [List.set]
    | succ j =>
      simp only [List.set, List.take_succ_cons, List.drop_succ_cons, List.cons_append,
        List.cons.injEq, true_and]
      exact ih j (by simpa using h)

/-- Frame of traversal filters under a replacement of a vanishing
child subtree by another vanishing subtree. -/
theorem filterMap_iterA_set {α : Type} (f : Xml × AncCtx → Option α) (anc : AncCtx)
    (t : String) (a : List (String × String)) (tx : Option String)
    (cs : List Xml) (i : Nat) (sd sd' : Xml)
    (hget : cs.get? i = some sd)
    (hroot : ∀ (cs'' : XmlList) anc', f (Xml.mk t a tx cs'', anc') = none)
    (hsd : ∀ anc', (Xml.iterA anc' sd).filterMap f = [])
    (hsd' : ∀ anc', (Xml.iterA anc' sd').filterMap f = []) :
    (Xml.iterA anc (Xml.mk t a tx (XmlList.ofList (cs.set i sd')))).filterMap f =
      (Xml.iterA anc (Xml.mk t a tx (XmlList.ofList cs))).filterMap f := by
  have hdecomp : cs = cs.take i ++ sd :: cs.drop (i + 1) := decomp_of_getQ cs i sd hget
  have hset : cs.set i sd' = cs.take i ++ sd' :: cs.drop (i + 1) := set_of_getQ cs i sd sd' hget
  simp only [Xml.iterA, List.filterMap_cons, hroot]
  rw [XmlList.iterA_eq_flatMap, XmlList.iterA_eq_flatMap]
  rw [XmlList.toList_ofList, XmlList.toList_ofList]
  rw [hset]
  conv_rhs => rw [hdecomp]
  rw [List.flatMap_append, List.flatMap_append]
  simp only [List.flatMap_cons]
  rw [List.filterMap_append, List.filterMap_append, List.filterMap_append,
    List.filterMap_append]
  rw [hsd (a :: anc), hsd' (a :: anc)]

/-- Frame of traversal filters under appending a vanishing child. -/
theorem filterMap_iterA_append {α : Type} (f : Xml × AncCtx → Option α) (anc : AncCtx)
    (t : String) (a : List (String × String)) (tx : Option String)
    (cs : List Xml) (sd' : Xml)
    (hroot : ∀ (cs'' : XmlList) anc', f (Xml.mk t a tx cs'', anc') = none)
    (hsd' : ∀ anc', (Xml.iterA anc' sd').filterMap f = []) :
    (Xml.iterA anc (Xml.mk t a tx (XmlList.ofList (cs ++ [sd'])))).filterMap f =
      (Xml.iterA anc (Xml.mk t a tx (XmlList.ofList cs))).filterMap f := by
  simp only [Xml.iterA, List.filterMap_cons, hroot]
  rw [XmlList.iterA_eq_flatMap, XmlList.iterA_eq_flatMap]
  rw [XmlList.toList_ofList, XmlList.toList_ofList]
  rw [List.flatMap_append, List.filterMap_append]
  simp only [List.flatMap_cons, List.flatMap_nil, List.append_nil]
  rw [hsd' (a :: anc)]
  simp

/-- Element cleanliness in propositional form. -/
theorem cleanElem_iff (x : Xml) : cleanElem x = true ↔
    (localname x.tag ≠ "drawing" ∧ ∀ kv ∈ x.attrs, strEndsWith kv.1 "id" = false) := by
  unfold cleanElem
  rw [Bool.and_eq_true, decide_eq_true_eq, List.all_eq_true]
  simp [Bool.not_eq_true']

/-- Element cleanliness ignores text and children. -/
theorem cleanElem_remk (x : Xml) (tx : Option String) (cs : XmlList) :
    cleanElem (Xml.mk x.tag x.attrs tx cs) = cleanElem x := by
  cases x
  rfl

/-- Subtree cleanliness covers the root element. -/
theorem cleanElem_of_cleanAll (x : Xml) (h : cleanAll x = true) : cleanElem x = true := by
  cases x with
  | mk t a tx cs => exact ((cleanAll_mk t a tx cs).mp h).1

/-- The placeholder element is clean. -/
theorem cleanAll_dummy : cleanAll dummyXml = true := by decide

/-- A clean childless element is a clean subtree. -/
theorem cleanAll_leaf (t : String) (a : List (String × String)) (tx : Option String)
    (h : cleanElem (Xml.mk t a tx .nil) = true) : cleanAll (Xml.mk t a tx .nil) = true := by
  rw [cleanAll_mk]
  refine ⟨h, ?_⟩
  intro c hc
  simp [XmlList.toList] at hc

/-- Defaulted indexing keeps cleanliness. -/
theorem cleanAll_getD (l : List Xml) (i : Nat) (h : ∀ r ∈ l, cleanAll r = true) :
    cleanAll (l.getD i dummyXml) = true := by
  induction l generalizing i with
  | nil => simpa [List.getD] using cleanAll_dummy
  | cons x t ih =>
    cases i with
    | zero => exact h x (List.mem_cons_self x t)
    | succ j =>
      have : (x :: t).getD (j + 1) dummyXml = t.getD j dummyXml := by
        simp [List.getD]
      rw [this]
      exact ih j (fun r hr => h r (List.mem_cons_of_mem _ hr))

/-- Clean elements carry no relationship id. -/
theorem findRid_none_of_clean (e : Xml) (h : cleanElem e = true) : findRid e = none := by
  unfold findRid
  rw [List.find?_eq_none.mpr]
  · rfl
  · intro kv hkv
    have h2 := ((cleanElem_iff e).mp h).2 kv hkv
    simp [h2]

/-- Attribute assignment only touches the given key. -/
theorem mem_attrSet (attrs : List (String × String)) (k v : String) (kv : String × String)
    (h : kv ∈ attrSet attrs k v) : kv.1 = k ∨ kv ∈ attrs := by
  induction attrs with
  | nil =>
    simp [attrSet] at h
    subst h
    exact Or.inl rfl
  | cons e rest ih =>
    obtain ⟨k0, v0⟩ := e
    unfold attrSet at h
    split at h
    · rcases List.mem_cons.mp h with h1 | h1
      · rename_i hk
        subst h1
        exact Or.inl hk
      · exact Or.inr (List.mem_cons_of_mem _ h1)
    · rcases List.mem_cons.mp h with h1 | h1
      · exact Or.inr (h1 ▸ List.mem_cons_self _ _)
      · rcases ih h1 with h2 | h2
        · exact Or.inl h2
        · exact Or.inr (List.mem_cons_of_mem _ h2)

/-- Membership after a positional insertion. -/
theorem mem_insertIdx_own {α : Type} (v x : α) :
    ∀ (i : Nat) (l : List α), x ∈ List.insertIdx i v l → x = v ∨ x ∈ l
  | 0, l => by
    intro h
    rw [List.insertIdx_zero] at h
    rcases List.mem_cons.mp h with h1 | h1
    · exact Or.inl h1
    · exact Or.inr h1
  | i + 1, [] => by
    intro h
    rw [List.insertIdx_succ_nil] at h
    exact absurd h (List.not_mem_nil x)
  | i + 1, a :: l => by
    intro h
    rw [List.insertIdx_succ_cons] at h
    rcases List.mem_cons.mp h with h1 | h1
    · exact Or.inr (h1 ▸ List.mem_cons_self _ _)
    · rcases mem_insertIdx_own v x i l h1 with h2 | h2
      · exact Or.inl h2
      · exact Or.inr (List.mem_cons_of_mem _ h2)

/-- Membership after a positional update. -/
theorem mem_set_own {α : Type} (l : List α) (i : Nat) (v x : α)
    (h : x ∈ l.set i v) : x = v ∨ x ∈ l := by
  rcases List.mem_or_eq_of_mem_set h with h1 | h1
  · exact Or.inr h1
  · exact Or.inl h1

/-- Resolved indexing from a defaulted one, in range. -/
theorem get_of_getD {α : Type} (l : List α) (i : Nat) (d : α) (h : i < l.length) :
    l.get? i = some (l.getD i d) := by
  induction l generalizing i with
  | nil => simp at h
  | cons a t ih =>
    cases i with
    | zero => rfl
    | succ j =>
      have : (a :: t).getD (j + 1) d = t.getD j d := by simp [List.getD]
      rw [this]
      exact ih j (by simpa using h)

/-- A found index is in range. -/
theorem findIdxQ_lt_length {α : Type} (p : α → Bool) (l : List α) (i : Nat)
    (h : l.findIdx? p = some i) : i < l.length := by
  obtain ⟨hl, -, -⟩ := List.findIdx?_eq_some_iff_getElem.mp h
  exact hl

/-- Invariant of the patch state: every plain child and every arena
row is a clean subtree. -/
def cleanState (st : PatchState) : Prop :=
  (∀ x, Sum.inr x ∈ st.order → cleanAll x = true) ∧ (∀ r ∈ st.arena, cleanAll r = true)

/-- Element cleanliness computed from the constructor fields. -/
theorem cleanTA_mk (t : String) (a : List (String × String)) (tx : Option String)
    (cs : XmlList) :
    cleanElem (Xml.mk t a tx cs) =
      (decide (localname t ≠ "drawing") && a.all (fun kv => !(strEndsWith kv.1 "id"))) := rfl

/-- The arena construction fold keeps the invariant. -/
theorem cleanState_initGo (cs : List Xml) (st : PatchState) (hst : cleanState st)
    (hcs : ∀ c ∈ cs, cleanAll c = true) :
    cleanState (cs.foldl (fun st c =>
      if c.tag = nsTag "row" then
        { st with order := st.order ++ [Sum.inl st.arena.length], arena := st.arena ++ [c] }
      else { st with order := st.order ++ [Sum.inr c] }) st) := by
  induction cs generalizing st with
  | nil => exact hst
  | cons c rest ih =>
    rw [List.foldl_cons]
    refine ih _ ?_ (fun x hx => hcs x (List.mem_cons_of_mem _ hx))
    have hc : cleanAll c = true := hcs c (List.mem_cons_self _ _)
    split
    · refine ⟨?_, ?_⟩
      · intro x hx
        rcases List.mem_append.mp hx with h1 | h1
        · exact hst.1 x h1
        · simp at h1
      · intro r hr
        rcases List.mem_append.mp hr with h1 | h1
        · exact hst.2 r h1
        · simp at h1
          exact h1 ▸ hc
    · refine ⟨?_, hst.2⟩
      intro x hx
      rcases List.mem_append.mp hx with h1 | h1
      · exact hst.1 x h1
      · simp at h1
        exact h1 ▸ hc

/-- Initial state invariant from clean children. -/
theorem cleanState_init (cs : List Xml) (hcs : ∀ c ∈ cs, cleanAll c = true) :
    cleanState (initPatchState cs) := by
  unfold initPatchState
  exact cleanState_initGo cs ⟨[], [], []⟩ ⟨by simp, by simp⟩ hcs

/-- Building the rows dictionary keeps the invariant. -/
theorem cleanState_initRowsDict (st : PatchState) (h : cleanState st) :
    cleanState (initRowsDict st) := h

/-- Cleanliness of the inline-string element created by the patcher. -/
theorem cleanAll_isElem (tAttrs : List (String × String)) (v : String)
    (htA : ∀ kv ∈ tAttrs, strEndsWith kv.1 "id" = false) :
    cleanAll (Xml.mk (nsTag "is") [] none
      (.cons (Xml.mk (nsTag "t") tAttrs (some v) .nil) .nil)) = true := by
  rw [cleanAll_mk]
  constructor
  · rw [cleanTA_mk, List.all_nil]
    decide
  · intro c hc
    have hc2 : c = Xml.mk (nsTag "t") tAttrs (some v) .nil := by
      simpa [XmlList.toList] using hc
    subst hc2
    refine cleanAll_leaf _ _ _ ?_
    rw [cleanTA_mk, Bool.and_eq_true]
    refine ⟨by decide, ?_⟩
    rw [List.all_eq_true]
    intro kv hkv
    have := htA kv hkv
    simp [this]

/-- Cleanliness of the edited cell element. -/
theorem cleanAll_cellEdit (cell : Xml) (hcell : cleanAll cell = true)
    (tAttrs : List (String × String)) (v : String)
    (htA : ∀ kv ∈ tAttrs, strEndsWith kv.1 "id" = false) :
    cleanAll (Xml.mk cell.tag (attrSet cell.attrs "t" "inlineStr") cell.text
      (.cons (Xml.mk (nsTag "is") [] none
        (.cons (Xml.mk (nsTag "t") tAttrs (some v) .nil) .nil)) .nil)) = true := by
  rw [cleanAll_mk]
  constructor
  · rw [cleanElem_iff]
    have hce := (cleanElem_iff cell).mp (cleanElem_of_cleanAll cell hcell)
    refine ⟨hce.1, ?_⟩
    intro kv hkv
    rcases mem_attrSet cell.attrs "t" "inlineStr" kv hkv with h1 | h1
    · rw [h1]
      decide
    · exact hce.2 kv h1
  · intro c hc
    have hc2 : c = Xml.mk (nsTag "is") [] none
        (.cons (Xml.mk (nsTag "t") tAttrs (some v) .nil) .nil) := by
      simpa [XmlList.toList] using hc
    subst hc2
    exact cleanAll_isElem tAttrs v htA

/-- Cleanliness of the edited row element. -/
theorem cleanAll_editRow (row : Xml) (hrow : cleanAll row = true) (j : Nat)
    (cells : List Xml) (hcells : ∀ c ∈ cells, cleanAll c = true) (cellN : Xml)
    (hcellN : cleanAll cellN = true) :
    cleanAll (Xml.mk row.tag row.attrs row.text (XmlList.ofList (cells.set j cellN))) = true := by
  rw [cleanAll_mk]
  constructor
  · rw [cleanElem_remk]
    exact cleanElem_of_cleanAll row hrow
  · rw [XmlList.toList_ofList]
    intro c hc
    rcases mem_set_own _ _ _ _ hc with h1 | h1
    · exact h1 ▸ hcellN
    · exact hcells c h1

/-- Cleanliness of the fresh row element created by the patcher. -/
theorem cleanAll_newRow (s : String) :
    cleanAll (Xml.mk (nsTag "row") [("r", s)] none .nil) = true := by
  refine cleanAll_leaf _ _ _ ?_
  rw [cleanTA_mk, List.all_cons, List.all_nil]
  show (decide (localname (nsTag "row") ≠ "drawing") && (!(strEndsWith "r" "id") && true)) = true
  decide

/-- Cleanliness of the fresh cell element created by the patcher. -/
theorem cleanAll_newCell (s : String) :
    cleanAll (Xml.mk (nsTag "c") [("r", s)] none .nil) = true := by
  refine cleanAll_leaf _ _ _ ?_
  rw [cleanTA_mk, List.all_cons, List.all_nil]
  show (decide (localname (nsTag "c") ≠ "drawing") && (!(strEndsWith "r" "id") && true)) = true
  decide

/-- Whitespace-marker attributes never carry relationship ids. -/
theorem tAttrs_clean (v : String) :
    ∀ kv ∈ (if strStartsWithChar v ' ' || strEndsWith v " "
      then [(xmlSpaceKey, "preserve")] else ([] : List (String × String))),
      strEndsWith kv.1 "id" = false := by
  intro kv hkv
  split at hkv
  · have h2 : kv = (xmlSpaceKey, "preserve") := by simpa using hkv
    rw [h2]
    decide
  · simp at hkv

/-- One update of the patch loop keeps the invariant. -/
theorem cleanState_applyOne (st0 : PatchState) (upd : SheetUpdate) (h : cleanState st0) :
    cleanState (applyOneUpdate st0 upd) := by
  simp only [applyOneUpdate]
  cases hfound : idget st0.rowsDict (upd.1 + 2) with
  | some id =>
    refine ⟨h.1, ?_⟩
    intro r hr
    rcases mem_set_own _ _ _ _ hr with h1 | h1
    · subst h1
      refine cleanAll_editRow _ (cleanAll_getD _ _ h.2) _ _ ?_ _
        (cleanAll_cellEdit _ (cleanAll_getD _ _ ?_) _ _ (tAttrs_clean _))
      all_goals
        intro c hc
        split at hc
      all_goals
        first
        | exact cleanAll_of_mem _ c (cleanAll_getD _ _ h.2) hc
        | rcases List.mem_append.mp hc with h2 | h2
          · exact cleanAll_of_mem _ c (cleanAll_getD _ _ h.2) h2
          · have h3 : c = Xml.mk (nsTag "c")
                [("r", col_to_letter (upd.2.1 + 1) ++ toString (upd.1 + 2))] none .nil := by
              simpa using h2
            exact h3 ▸ cleanAll_newCell _
    · exact h.2 r h1
  | none =>
    have harena : ∀ r ∈ st0.arena ++ [Xml.mk (nsTag "row")
        [("r", toString (upd.1 + 2))] none .nil], cleanAll r = true := by
      intro r hr
      rcases List.mem_append.mp hr with h1 | h1
      · exact h.2 r h1
      · have h2 : r = Xml.mk (nsTag "row") [("r", toString (upd.1 + 2))] none .nil := by
          simpa using h1
        exact h2 ▸ cleanAll_newRow _
    refine ⟨?_, ?_⟩
    · intro x hx
      revert hx
      cases hrip : rowInsertPos st0 (upd.1 + 2) with
      | some i =>
        intro hx
        rcases mem_insertIdx_own _ _ _ _ hx with h1 | h1
        · exact absurd h1 (by simp)
        · exact h.1 x h1
      | none =>
        intro hx
        rcases List.mem_append.mp hx with h1 | h1
        · exact h.1 x h1
        · simp at h1
    · intro r hr
      rcases mem_set_own _ _ _ _ hr with h1 | h1
      · subst h1
        refine cleanAll_editRow _ (cleanAll_getD _ _ harena) _ _ ?_ _
          (cleanAll_cellEdit _ (cleanAll_getD _ _ ?_) _ _ (tAttrs_clean _))
        all_goals
          intro c hc
          split at hc
        all_goals
          first
          | exact cleanAll_of_mem _ c (cleanAll_getD _ _ harena) hc
          | rcases List.mem_append.mp hc with h2 | h2
            · exact cleanAll_of_mem _ c (cleanAll_getD _ _ harena) h2
            · have h3 : c = Xml.mk (nsTag "c")
                  [("r", col_to_letter (upd.2.1 + 1) ++ toString (upd.1 + 2))] none .nil := by
                simpa using h2
              exact h3 ▸ cleanAll_newCell _
      · exact harena r h1

/-- The whole update batch keeps the invariant. -/
theorem cleanState_foldl (updates : List SheetUpdate) (st : PatchState)
    (h : cleanState st) : cleanState (updates.foldl applyOneUpdate st) := by
  induction updates generalizing st with
  | nil => exact h
  | cons u rest ih =>
    rw [List.foldl_cons]
    exact ih _ (cleanState_applyOne st u h)

/-- The sheet-data patch keeps subtree cleanliness. -/
theorem cleanAll_updateSheetData (sd : Xml) (updates : List SheetUpdate)
    (hsd : cleanAll sd = true) : cleanAll (updateSheetData sd updates) = true := by
  unfold updateSheetData materializeSheetData
  have hst : cleanState (updates.foldl applyOneUpdate
      (initRowsDict (initPatchState sd.children.toList))) :=
    cleanState_foldl _ _ (cleanState_initRowsDict _
      (cleanState_init _ (fun c hc => cleanAll_of_mem sd c hsd hc)))
  rw [cleanAll_mk]
  constructor
  · rw [cleanElem_remk]
    exact cleanElem_of_cleanAll sd hsd
  · rw [XmlList.toList_ofList]
    intro c hc
    obtain ⟨s, hs, hmap⟩ := List.mem_map.mp hc
    cases s with
    | inl i =>
      rw [← hmap]
      exact cleanAll_getD _ _ hst.2
    | inr x =>
      rw [← hmap]
      exact hst.1 x hs

/-- The freshly created empty sheet-data element is clean. -/
theorem cleanAll_emptySheetData :
    cleanAll (Xml.mk (nsTag "sheetData") [] none .nil) = true := by decide

/-- Frame of traversal filters over the whole sheet-document patch:
a filter that vanishes on clean elements sees the same matches before
and after `_update_sheet_xml`. -/
theorem filterMap_iterA_update {α : Type} (f : Xml × AncCtx → Option α)
    (root : Xml) (updates : List SheetUpdate)
    (h3 : cleanSheetRoot root = true)
    (hf : ∀ e anc', cleanElem e = true → f (e, anc') = none) :
    (Xml.iterA [] (update_sheet_xml root updates)).filterMap f =
      (Xml.iterA [] root).filterMap f := by
  cases root with
  | mk t a tx cs =>
    unfold cleanSheetRoot at h3
    rw [Bool.and_eq_true] at h3
    have hroot : ∀ (cs'' : XmlList) (anc' : AncCtx), f (Xml.mk t a tx cs'', anc') = none := by
      intro cs'' anc'
      exact hf _ _ h3.1
    simp only [update_sheet_xml]
    cases hidx : (Xml.mk t a tx cs).children.toList.findIdx? (fun c => c.tag = nsTag "sheetData") with
    | some i =>
      rw [hidx] at h3
      have hlt : i < (Xml.mk t a tx cs).children.toList.length :=
        findIdxQ_lt_length _ _ _ hidx
      have hget : (Xml.mk t a tx cs).children.toList.get? i =
          some ((Xml.mk t a tx cs).children.toList.getD i dummyXml) :=
        get_of_getD _ _ _ hlt
      have hsdclean : cleanAll ((Xml.mk t a tx cs).children.toList.getD i dummyXml) = true := h3.2
      conv_rhs => rw [show (Xml.mk t a tx cs) =
        Xml.mk t a tx (XmlList.ofList (Xml.mk t a tx cs).children.toList) from by
          rw [show (Xml.mk t a tx cs).children = cs from rfl, XmlList.ofList_toList]]
      exact filterMap_iterA_set f [] t a tx _ i _ _ hget hroot
        (fun anc' => filterMap_iterA_nil f anc' _ hsdclean hf)
        (fun anc' => filterMap_iterA_nil f anc' _
          (cleanAll_updateSheetData _ updates hsdclean) hf)
    | none =>
      conv_rhs => rw [show (Xml.mk t a tx cs) =
        Xml.mk t a tx (XmlList.ofList (Xml.mk t a tx cs).children.toList) from by
          rw [show (Xml.mk t a tx cs).children = cs from rfl, XmlList.ofList_toList]]
      exact filterMap_iterA_append f [] t a tx _ _ hroot
        (fun anc' => filterMap_iterA_nil f anc' _
          (cleanAll_updateSheetData _ updates cleanAll_emptySheetData) hf)

/-- The sheet patch leaves the drawing relationship ids unchanged. -/
theorem drawingRidsOf_update (root : Xml) (updates : List SheetUpdate)
    (h3 : cleanSheetRoot root = true) :
    drawingRidsOf (update_sheet_xml root updates) = drawingRidsOf root := by
  unfold drawingRidsOf Xml.iter
  rw [List.filterMap_map, List.filterMap_map]
  refine filterMap_iterA_update _ root updates h3 ?_
  intro e anc' hce
  have h1 : localname e.tag ≠ "drawing" := ((cleanElem_iff e).mp hce).1
  show (if localname e.tag = "drawing" then _ else none) = none
  rw [if_neg h1]

/-- The sheet patch leaves the direct-image pairs of the cell-image
pass unchanged. -/
theorem cellPass1Pairs_update (a : Archive) (srp : String) (srels : RelDict)
    (root : Xml) (updates : List SheetUpdate) (h3 : cleanSheetRoot root = true) :
    cellPass1Pairs a srp srels (update_sheet_xml root updates) =
      cellPass1Pairs a srp srels root := by
  unfold cellPass1Pairs
  refine filterMap_iterA_update _ root updates h3 ?_
  intro e anc' hce
  have h1 : findRid e = none := findRid_none_of_clean e hce
  show (match findRid e with
    | none => none
    | some rid => _) = none
  rw [h1]

/-- The anchored-image pairs of a drawing part depend on the archive
only through image parts, never through the sheet part. -/
theorem drawingAnchorPairs_congr (aN a : Archive) (n : Int) (drels : RelDict)
    (drp : String) (droot : Xml)
    (hframe : ∀ q, q ≠ sheetPath n → getPart aN q = getPart a q)
    (havoid : ∀ kv ∈ drels, resolveTarget drp kv.2 ≠ some (sheetPath n)) :
    drawingAnchorPairs aN drels drp droot = drawingAnchorPairs a drels drp droot := by
  unfold drawingAnchorPairs
  refine List.filterMap_congr ?_
  intro anchor hanchor
  dsimp only
  split
  · cases hfrm : frmOf anchor with
    | none => rfl
    | some frm =>
      dsimp only
      cases hrc : frmRowCol frm with
      | mk ro co =>
        cases ro with
        | none => cases co <;> rfl
        | some row =>
          cases co with
          | none => rfl
          | some col =>
            dsimp only
            cases hblip : anchorBlipRid anchor with
            | none => rfl
            | some blipRid =>
              dsimp only
              cases hdget : dget drels blipRid with
              | none => rfl
              | some imgTarget =>
                dsimp only
                by_cases hit : imgTarget = ""
                · rw [if_pos hit, if_pos hit]
                · rw [if_neg hit, if_neg hit]
                  cases hres : resolveTarget drp imgTarget with
                  | none => rfl
                  | some imgPath =>
                    dsimp only
                    have hne : imgPath ≠ sheetPath n := by
                      intro hc
                      exact havoid _ (dget_mem drels blipRid imgTarget hdget) (hc ▸ hres)
                    rw [readImageAsDataUri_congr aN a imgPath (hframe _ hne)]
  · rfl

/-- Step 1 of the cell-image pass depends on the archive only through
image parts resolved from the sheet relationships, never through the
sheet part. -/
theorem cellPass1Pairs_congr (aN a : Archive) (n : Int) (srp : String)
    (srels : RelDict) (sroot : Xml)
    (hframe : ∀ q, q ≠ sheetPath n → getPart aN q = getPart a q)
    (havoid : ∀ kv ∈ srels, resolveTarget srp kv.2 ≠ some (sheetPath n)) :
    cellPass1Pairs aN srp srels sroot = cellPass1Pairs a srp srels sroot := by
  unfold cellPass1Pairs
  refine List.filterMap_congr ?_
  intro p hp
  dsimp only
  cases hrid : findRid p.1 with
  | none => rfl
  | some rid =>
    dsimp only
    by_cases h1 : rid = ""
    · rw [if_pos h1, if_pos h1]
    · rw [if_neg h1, if_neg h1]
      by_cases h2 : ¬ dhas srels rid = true
      · rw [if_pos h2, if_pos h2]
      · rw [if_neg h2, if_neg h2]
        cases hdget : dget srels rid with
        | none => rfl
        | some target =>
          dsimp only
          by_cases h3 : target = ""
          · rw [if_pos h3, if_pos h3]
          · rw [if_neg h3, if_neg h3]
            cases hres : resolveTarget srp target with
            | none => rfl
            | some tpath =>
              dsimp only
              have hne : tpath ≠ sheetPath n := by
                intro hc
                exact havoid _ (dget_mem srels rid target hdget) (hc ▸ hres)
              rw [readImageAsDataUri_congr aN a tpath (hframe _ hne)]

/-- Step 2 of the cell-image pass depends on the archive only through
cell-image parts, their rels, and image parts, never through the sheet
part. -/
theorem cellPass2Pairs_congr (aN a : Archive) (n : Int) (srp : String)
    (srels : RelDict)
    (hframe : ∀ q, q ≠ sheetPath n → getPart aN q = getPart a q)
    (h4 : relsTargetsAvoid a (sheetPath n) = true)
    (havoid : ∀ kv ∈ srels, resolveTarget srp kv.2 ≠ some (sheetPath n)) :
    cellPass2Pairs aN srp srels = cellPass2Pairs a srp srels := by
  unfold cellPass2Pairs
  refine List.flatMap_congr ?_
  intro rt hrt
  dsimp only
  split
  · rfl
  · cases hres : resolveTarget srp rt.2 with
    | none => rfl
    | some tpath =>
      dsimp only
      have htp : tpath ≠ sheetPath n := fun hc => havoid rt hrt (hc ▸ hres)
      rw [hframe tpath htp]
      cases hgp : getPart a tpath with
      | none => rfl
      | some part =>
        dsimp only
        cases hpp : parsePart part with
        | none => rfl
        | some croot =>
          dsimp only
          rw [readRelationships_congr aN a (relsForPart tpath)
            (hframe _ (relsForPart_ne_sheetPath tpath n))]
          refine List.filterMap_congr ?_
          intro q hq
          dsimp only
          cases her : (match findBlipEmbed q.1 with
            | some s => if s = "" then findRid q.1 else some s
            | none => findRid q.1) with
          | none => rfl
          | some er =>
            dsimp only
            by_cases h1 : er = ""
            · rw [if_pos h1, if_pos h1]
            · rw [if_neg h1, if_neg h1]
              by_cases h2 : ¬ dhas (readRelationships a (relsForPart tpath)) er = true
              · rw [if_pos h2, if_pos h2]
              · rw [if_neg h2, if_neg h2]
                cases hdget : dget (readRelationships a (relsForPart tpath)) er with
                | none => rfl
                | some it =>
                  dsimp only
                  by_cases h3 : it = ""
                  · rw [if_pos h3, if_pos h3]
                  · rw [if_neg h3, if_neg h3]
                    cases hres2 : resolveTarget (relsForPart tpath) it with
                    | none => rfl
                    | some ipath =>
                      dsimp only
                      have hne : ipath ≠ sheetPath n := by
                        intro hc
                        refine readRelationships_avoid a (sheetPath n) (relsForPart tpath)
                          h4 (relsForPart_endsWith_rels tpath) _
                          (dget_mem _ er it hdget) ?_
                        rw [← hc]
                        exact hres2
                      rw [readImageAsDataUri_congr aN a ipath (hframe _ hne)]

/-- The drawing-XML pass sees the same images in the patched archive. -/
theorem extract_drawing_patched (a : Archive) (n : Int) (updates : List SheetUpdate)
    (sroot : Xml)
    (h2 : getPart a (sheetPath n) = some (ZPart.xml sroot))
    (h3 : cleanSheetRoot sroot = true)
    (h4 : relsTargetsAvoid a (sheetPath n) = true) :
    extract_drawing_images_map
      (.zip (patchedArchive a (sheetPath n) (update_sheet_xml sroot updates))) n =
      extract_drawing_images_map (.zip a) n := by
  have hframe : ∀ q, q ≠ sheetPath n →
      getPart (patchedArchive a (sheetPath n) (update_sheet_xml sroot updates)) q =
        getPart a q :=
    fun q hq => getPart_patched_ne a _ q _ hq
  have havoid : ∀ kv ∈ readRelationships a (sheetRelsPath n),
      resolveTarget (sheetRelsPath n) kv.2 ≠ some (sheetPath n) :=
    readRelationships_avoid a _ _ h4 (sheetRelsPath_endsWith_rels n)
  unfold extract_drawing_images_map
  dsimp only
  rw [getPart_patched_self, h2]
  dsimp only [parsePart]
  rw [drawingRidsOf_update sroot updates h3]
  rw [readRelationships_congr _ a (sheetRelsPath n) (hframe _ (sheetRelsPath_ne_sheetPath n))]
  split
  · rfl
  · congr 1
    refine List.flatMap_congr ?_
    intro rid hrid
    dsimp only
    cases hdget : dget (readRelationships a (sheetRelsPath n)) rid with
    | none => rfl
    | some target =>
      dsimp only
      by_cases ht : target = ""
      · rw [if_pos ht, if_pos ht]
      · rw [if_neg ht, if_neg ht]
        cases hres : resolveTarget (sheetRelsPath n) target with
        | none => rfl
        | some dpath =>
          dsimp only
          have hdp : dpath ≠ sheetPath n := by
            intro hc
            exact havoid _ (dget_mem _ rid target hdget) (hc ▸ hres)
          rw [hframe dpath hdp]
          cases hgp : getPart a dpath with
          | none => rfl
          | some dpart =>
            dsimp only
            cases dpart with
            | bin d => rfl
            | xml droot =>
              dsimp only
              rw [readRelationships_congr _ a (relsForPart dpath)
                (hframe _ (relsForPart_ne_sheetPath dpath n))]
              exact drawingAnchorPairs_congr _ a n _ _ droot hframe
                (readRelationships_avoid a _ _ h4 (relsForPart_endsWith_rels dpath))

/-- The cell-image pass sees the same images in the patched archive. -/
theorem extract_cell_patched (a : Archive) (n : Int) (updates : List SheetUpdate)
    (sroot : Xml)
    (h2 : getPart a (sheetPath n) = some (ZPart.xml sroot))
    (h3 : cleanSheetRoot sroot = true)
    (h4 : relsTargetsAvoid a (sheetPath n) = true) :
    extract_cell_images_map
      (.zip (patchedArchive a (sheetPath n) (update_sheet_xml sroot updates))) n =
      extract_cell_images_map (.zip a) n := by
  have hframe : ∀ q, q ≠ sheetPath n →
      getPart (patchedArchive a (sheetPath n) (update_sheet_xml sroot updates)) q =
        getPart a q :=
    fun q hq => getPart_patched_ne a _ q _ hq
  have havoid : ∀ kv ∈ readRelationships a (sheetRelsPath n),
      resolveTarget (sheetRelsPath n) kv.2 ≠ some (sheetPath n) :=
    readRelationships_avoid a _ _ h4 (sheetRelsPath_endsWith_rels n)
  unfold extract_cell_images_map
  dsimp only
  rw [getPart_patched_self, h2]
  dsimp only [parsePart]
  rw [readRelationships_congr _ a (sheetRelsPath n) (hframe _ (sheetRelsPath_ne_sheetPath n))]
  rw [cellPass1Pairs_congr _ a n (sheetRelsPath n) _ _ hframe havoid]
  rw [cellPass1Pairs_update a (sheetRelsPath n) _ sroot updates h3]
  rw [cellPass2Pairs_congr _ a n (sheetRelsPath n) _ hframe h4 havoid]

/-- Whole-map preservation: the patched archive yields the same image
map as the original. -/
theorem extract_image_map_patched (a : Archive) (n : Int) (updates : List SheetUpdate)
    (sroot : Xml) (path : String) (wb : Option Workbook)
    (h2 : getPart a (sheetPath n) = some (ZPart.xml sroot))
    (h3 : cleanSheetRoot sroot = true)
    (h4 : relsTargetsAvoid a (sheetPath n) = true) :
    extract_image_map path
      (some (.zip (patchedArchive a (sheetPath n) (update_sheet_xml sroot updates)))) wb n =
      extract_image_map path (some (.zip a)) wb n := by
  unfold extract_image_map
  dsimp only
  rw [extract_drawing_patched a n updates sroot h2 h3 h4,
    extract_cell_patched a n updates sroot h2 h3 h4]

/-- C2: for every archive, sheet number and non-empty update batch
whose target sheet part parses, where the worksheet document keeps
drawing references and relationship ids outside `sheetData` and no
relationship of the package resolves to the sheet part itself (both
true of every real package), `apply_sheet_updates_preserve_images`
returns the archive that copies every entry by name and replaces only
the sheet part with the patched document; every name other than the
sheet part resolves to its original content, and re-extracting the
image map from the patched archive returns exactly the original map. -/
theorem c2_patch_frame_and_image_preservation
    (a : Archive) (n : Int) (updates : List SheetUpdate) (sroot : Xml)
    (path : String) (wb : Option Workbook)
    (h1 : updates ≠ [])
    (h2 : getPart a (sheetPath n) = some (ZPart.xml sroot))
    (h3 : cleanSheetRoot sroot = true)
    (h4 : relsTargetsAvoid a (sheetPath n) = true) :
    apply_sheet_updates_preserve_images (.zip a) n updates =
      .ok (.zip (patchedArchive a (sheetPath n) (update_sheet_xml sroot updates))) ∧
    (∀ q, q ≠ sheetPath n →
      getPart (patchedArchive a (sheetPath n) (update_sheet_xml sroot updates)) q =
        getPart a q) ∧
    extract_image_map path
      (some (.zip (patchedArchive a (sheetPath n) (update_sheet_xml sroot updates)))) wb n =
      extract_image_map path (some (.zip a)) wb n := by
  refine ⟨?_, fun q hq => getPart_patched_ne a _ q _ hq,
    extract_image_map_patched a n updates sroot path wb h2 h3 h4⟩
  unfold apply_sheet_updates_preserve_images
  rw [if_neg h1]
  dsimp only
  rw [h2]
  dsimp only [parsePart]
  rfl

/-- Witness of C2 at a concrete package: the drawing-anchored image at
data row 1 survives a batch writing `hello` into cell `A2`, and the
media part is copied unchanged. -/
theorem c2_witness :
    ([((0 : Int), (0 : Int), "hello")] : List SheetUpdate) ≠ [] ∧
    getPart (drawingArchive "2") (sheetPath 1) = some (ZPart.xml sheetDoc) ∧
    cleanSheetRoot sheetDoc = true ∧
    relsTargetsAvoid (drawingArchive "2") (sheetPath 1) = true ∧
    apply_sheet_updates_preserve_images (.zip (drawingArchive "2")) 1
        [((0 : Int), (0 : Int), "hello")] =
      .ok (.zip (patchedArchive (drawingArchive "2") (sheetPath 1)
        (update_sheet_xml sheetDoc [((0 : Int), (0 : Int), "hello")]))) ∧
    getPart (patchedArchive (drawingArchive "2") (sheetPath 1)
        (update_sheet_xml sheetDoc [((0 : Int), (0 : Int), "hello")])) "xl/media/image1.png" =
      getPart (drawingArchive "2") "xl/media/image1.png" ∧
    extract_image_map "f.xlsx"
      (some (.zip (patchedArchive (drawingArchive "2") (sheetPath 1)
        (update_sheet_xml sheetDoc [((0 : Int), (0 : Int), "hello")])))) (some wb0) 1 =
      extract_image_map "f.xlsx" (some (.zip (drawingArchive "2"))) (some wb0) 1 := by
  have h1 : ([((0 : Int), (0 : Int), "hello")] : List SheetUpdate) ≠ [] := by decide
  have h2 : getPart (drawingArchive "2") (sheetPath 1) = some (ZPart.xml sheetDoc) := rfl
  have h3 : cleanSheetRoot sheetDoc = true := rfl
  have h4 : relsTargetsAvoid (drawingArchive "2") (sheetPath 1) = true := rfl
  have hc := c2_patch_frame_and_image_preservation (drawingArchive "2") 1
    [((0 : Int), (0 : Int), "hello")] sheetDoc "f.xlsx" (some wb0) h1 h2 h3 h4
  exact ⟨h1, h2, h3, h4, hc.1, hc.2.1 "xl/media/image1.png" (by decide), hc.2.2⟩
